import Mathlib

/-!
Verification of the GoboFlow dataflow core (src/core/socket_types.py and
src/core/node_system.py) against its natural-language specification.

The Python code is shallowly embedded: each Python function of interest is
translated to an executable Lean definition over an explicit value universe
`PyVal`; Python exceptions become `Except Unit` results; Python `float` values
are modelled as rationals (the claims under study involve no rounding);
Python's `float(x)` string parsing is modelled on plain decimal literals
(sign, digits, optional fraction), which covers every string the claims and
tests exercise.
-/

namespace GoboFlow

/-- Value universe flowing through sockets: the Python values the core
manipulates (None, bool, int, float, str, list, dict-with-string-keys). -/
inductive PyVal where
  | vNone : PyVal
  | vBool : Bool → PyVal
  | vInt : Int → PyVal
  | vFloat : ℚ → PyVal
  | vStr : String → PyVal
  | vList : List PyVal → PyVal
  | vDict : List (String × PyVal) → PyVal

/-- Decimal digit value of a character, if it is a digit. -/
def decDigit (c : Char) : Option ℕ :=
  if c.isDigit then some (c.toNat - 48) else none

/-- Value of a digit string (most significant first); digits assumed valid. -/
def digitsNat (cs : List Char) : ℕ :=
  cs.foldl (fun a c => a * 10 + (c.toNat - 48)) 0

/-- Models Python `float(s)` on plain decimal literals: optional sign,
integer part, optional fractional part; anything else fails (ValueError). -/
def parseFloatQ (s : String) : Option ℚ :=
  let cs := s.toList
  let signed : Bool × List Char :=
    match cs with
    | '-' :: r => (true, r)
    | '+' :: r => (false, r)
    | r => (false, r)
  let body := signed.2
  let intPart := body.takeWhile Char.isDigit
  let rest := body.dropWhile Char.isDigit
  let mk : ℚ → Option ℚ := fun q => some (if signed.1 then -q else q)
  match rest with
  | [] =>
      if intPart.isEmpty then none
      else mk (digitsNat intPart)
  | '.' :: fr =>
      if fr.all Char.isDigit ∧ (intPart ≠ [] ∨ fr ≠ []) then
        mk ((digitsNat intPart : ℚ) + (digitsNat fr : ℚ) / (10 ^ fr.length))
      else none
  | _ => none

/-- Models Python `float(value)` over the value universe: numbers and
numeric strings convert, bools are 0/1; None, lists and dicts raise
(TypeError), non-numeric strings raise (ValueError) — both modelled as
`none`. -/
def pyFloat : PyVal → Option ℚ
  | .vNone => none
  | .vBool b => some (if b then 1 else 0)
  | .vInt i => some (i : ℚ)
  | .vFloat q => some q
  | .vStr s => parseFloatQ s
  | .vList _ => none
  | .vDict _ => none

/-- Tags of the SocketType variants (socket_types.py classes); the closed
set the spec's compatibility table ranges over.  Array is not needed by any
claim and is omitted from the embedding. -/
inductive SType where
  | number : SType
  | vector : ℕ → SType
  | geometry : SType
  | color : SType
  | string : SType
  | boolean : SType
  | anyT : SType
deriving DecidableEq

/-- `is_compatible_with`, variant by variant, translated from the
`isinstance` checks of each SocketType subclass in socket_types.py
(producer is `self`, consumer is `other`). -/
def SType.isCompatibleWith : SType → SType → Bool
  | .number, .number => true
  | .number, .vector _ => true
  | .number, _ => false
  | .vector _, .number => true
  | .vector _, .vector _ => true
  | .vector _, _ => false
  | .geometry, .geometry => true
  | .geometry, _ => false
  | .color, .color => true
  | .color, .vector _ => true
  | .color, _ => false
  | .string, .string => true
  | .string, _ => false
  | .boolean, .boolean => true
  | .boolean, .number => true
  | .boolean, _ => false
  | .anyT, _ => true

/-- An r,g,b,a record — the canonical Color value. -/
structure RGBA where
  r : ℚ
  g : ℚ
  b : ℚ
  a : ℚ
deriving DecidableEq

/-- Opaque white, the Color default. -/
def whiteRGBA : RGBA := ⟨1, 1, 1, 1⟩

/-- `NumberType.convert_value`: None → 0.0, otherwise `float(value)` with
ValueError/TypeError caught and turned into 0.0.  Never fails. -/
def numberConvert (v : PyVal) : Except Unit ℚ :=
  match v with
  | .vNone => .ok 0
  | _ =>
      match pyFloat v with
      | some q => .ok q
      | none => .ok 0

/-- `VectorType.convert_value`: None → zero vector, scalar (incl. bool) →
broadcast, list/tuple → elementwise `float` of the first `dim` entries,
zero-padded; the elementwise `float(x)` is NOT wrapped in try/except, so a
non-convertible element raises (modelled as `.error`). -/
def vectorConvert (dim : ℕ) (v : PyVal) : Except Unit (List ℚ) :=
  match v with
  | .vNone => .ok (List.replicate dim 0)
  | .vBool b => .ok (List.replicate dim (if b then 1 else 0))
  | .vInt i => .ok (List.replicate dim (i : ℚ))
  | .vFloat q => .ok (List.replicate dim q)
  | .vList l =>
      match (l.take dim).mapM pyFloat with
      | some vec => .ok (vec ++ List.replicate (dim - vec.length) 0)
      | none => .error ()
  | _ => .ok (List.replicate dim 0)

/-- Hex digit value of a character, as Python `int(c, 16)` would accept. -/
def hexDigitVal (c : Char) : Option ℕ :=
  if c.isDigit then some (c.toNat - 48)
  else if 'a' ≤ c ∧ c ≤ 'f' then some (c.toNat - 87)
  else if 'A' ≤ c ∧ c ≤ 'F' then some (c.toNat - 55)
  else none

/-- Two-character hex value, as Python `int(cd, 16)`. -/
def hexPair (c d : Char) : Option ℕ :=
  match hexDigitVal c, hexDigitVal d with
  | some x, some y => some (16 * x + y)
  | _, _ => none

/-- `ColorType.convert_value`: None → white; "#RGB" and "#RRGGBB" hex
strings parse with `int(_, 16)` which raises on non-hex digits (modelled
as `.error`); other strings fall through to white; lists of length ≥ 3 use
unguarded `float(...)` per channel (can raise); dicts use unguarded
`float` on each channel with default 1.0; everything else → white. -/
def colorConvert (v : PyVal) : Except Unit RGBA :=
  match v with
  | .vNone => .ok whiteRGBA
  | .vStr s =>
      match s.toList with
      | ['#', c1, c2, c3] =>
          match hexDigitVal c1, hexDigitVal c2, hexDigitVal c3 with
          | some d1, some d2, some d3 =>
              .ok ⟨(17 * d1 : ℚ) / 255, (17 * d2 : ℚ) / 255, (17 * d3 : ℚ) / 255, 1⟩
          | _, _, _ => .error ()
      | ['#', a1, a2, b1, b2, c1, c2] =>
          match hexPair a1 a2, hexPair b1 b2, hexPair c1 c2 with
          | some x, some y, some z =>
              .ok ⟨(x : ℚ) / 255, (y : ℚ) / 255, (z : ℚ) / 255, 1⟩
          | _, _, _ => .error ()
      | _ => .ok whiteRGBA
  | .vList (x :: y :: z :: rest) =>
      match pyFloat x, pyFloat y, pyFloat z with
      | some r, some g, some b =>
          match rest with
          | [] => .ok ⟨r, g, b, 1⟩
          | w :: _ =>
              match pyFloat w with
              | some a => .ok ⟨r, g, b, a⟩
              | none => .error ()
      | _, _, _ => .error ()
  | .vList _ => .ok whiteRGBA
  | .vDict d =>
      let dget : String → PyVal := fun k => (d.lookup k).getD (.vFloat 1)
      match pyFloat (dget "r"), pyFloat (dget "g"), pyFloat (dget "b"),
            pyFloat (dget "a") with
      | some r, some g, some b, some a => .ok ⟨r, g, b, a⟩
      | _, _, _, _ => .error ()
  | _ => .ok whiteRGBA

mutual

/-- Models Python `str(value)`; the exact textual rendering of containers
and floats is abstracted (the claims never depend on it), only totality and
the identity on strings matter. -/
def pyStr : PyVal → String
  | .vNone => "None"
  | .vBool b => if b then "True" else "False"
  | .vInt i => toString i
  | .vFloat q => toString q
  | .vStr s => s
  | .vList l => "[" ++ String.intercalate ", " (pyStrList l) ++ "]"
  | .vDict d => "\x7b" ++ String.intercalate ", " (d.map (fun e => e.1)) ++ "\x7d"

/-- Renderings of a list of values. -/
def pyStrList : List PyVal → List String
  | [] => []
  | v :: vs => pyStr v :: pyStrList vs

end

/-- `StringType.convert_value`: None → "", otherwise `str(value)`.
Never fails. -/
def stringConvert (v : PyVal) : Except Unit String :=
  match v with
  | .vNone => .ok ""
  | _ => .ok (pyStr v)

/-- `BooleanType.convert_value`: None → False, bool passthrough, numbers by
≠ 0, strings by the lowercase whitelist, containers by truthiness.
Never fails. -/
def booleanConvert (v : PyVal) : Except Unit Bool :=
  .ok (match v with
  | .vNone => false
  | .vBool b => b
  | .vInt i => decide (i ≠ 0)
  | .vFloat q => decide (q ≠ 0)
  | .vStr s => decide (s.toLower ∈ ["true", "1", "yes", "on"])
  | .vList l => !l.isEmpty
  | .vDict d => !d.isEmpty)

/-- `convert_value` dispatched on the SocketType variant, with results
injected back into the value universe (Geometry and Any pass values
through unchanged). -/
def convertValue : SType → PyVal → Except Unit PyVal
  | .number, v => (numberConvert v).map (fun q => .vFloat q)
  | .vector d, v => (vectorConvert d v).map (fun l => .vList (l.map PyVal.vFloat))
  | .geometry, v => .ok v
  | .color, v =>
      (colorConvert v).map (fun c =>
        .vDict [("r", .vFloat c.r), ("g", .vFloat c.g),
                ("b", .vFloat c.b), ("a", .vFloat c.a)])
  | .string, v => (stringConvert v).map (fun s => .vStr s)
  | .boolean, v => (booleanConvert v).map (fun b => .vBool b)
  | .anyT, v => .ok v

/-- The per-type fallback value `auto_convert_value` substitutes when
`convert_value` raises (socket_types.auto_convert_value's except branch). -/
def typeDefaultValue : SType → PyVal
  | .number => .vFloat 0
  | .vector d => .vList (List.replicate d (.vFloat 0))
  | .color => .vDict [("r", .vFloat 1), ("g", .vFloat 1),
                      ("b", .vFloat 1), ("a", .vFloat 1)]
  | .string => .vStr ""
  | .boolean => .vBool false
  | _ => .vNone

/-- `auto_convert_value`: calls `convert_value` and catches every
exception, substituting the type's zero/identity value.  Total. -/
def autoConvertValue (t : SType) (v : PyVal) : PyVal :=
  match convertValue t v with
  | .ok w => w
  | .error _ => typeDefaultValue t

/-- Success test for an embedded fallible call. -/
def exOk {α : Type} : Except Unit α → Bool
  | .ok _ => true
  | .error _ => false

/-! ## Node state machine (node_system.Node)

Per-node lifecycle: `state`, the `_output_cache` dict and its `_cache_valid`
flag, and the declared output socket names.  `compute()` is abstract in the
source, so each operation that may recompute takes the compute outcome for
this invocation as a parameter (`.ok results` for a normal return,
`.error` for a raised exception).  `_recalculate`'s transient Processing
state is invisible in this big-step embedding: only the state at return
(Clean on success, Error on exception) is recorded. -/

/-- The NodeState enum. -/
inductive NState where
  | clean : NState
  | dirty : NState
  | processing : NState
  | error : NState
deriving DecidableEq

/-- A node's mutable computational state. -/
structure NodeM where
  state : NState
  cacheValid : Bool
  cache : List (String × PyVal)
  outputNames : List String

/-- `Node.__init__`: state starts CLEAN while `_cache_valid` starts False
and the output cache is empty. -/
def NodeM.init (outs : List String) : NodeM := ⟨.clean, false, [], outs⟩

/-- The node-local part of `mark_dirty`: no-op when already Dirty,
otherwise set state = DIRTY and invalidate the cache (propagation to
downstream nodes lives in the graph model below). -/
def NodeM.markDirtyLocal (n : NodeM) : NodeM :=
  if n.state = .dirty then n else ⟨.dirty, false, n.cache, n.outputNames⟩

/-- `Node._recalculate`: on a normal `compute()` return, store the full
result map as the cache, validate it and become Clean; on an exception,
become Error leaving the cache fields untouched (the exception re-raises
to the caller). -/
def NodeM.recalc (n : NodeM) (computeRes : Except Unit (List (String × PyVal))) : NodeM :=
  match computeRes with
  | .ok results => ⟨.clean, true, results, n.outputNames⟩
  | .error _ => ⟨.error, n.cacheValid, n.cache, n.outputNames⟩

/-- Errors `get_output_value` can raise: KeyError for an undeclared output
name, or the re-raised exception from `compute()`. -/
inductive GErr where
  | socketNotFound : GErr
  | computeFailed : GErr
deriving DecidableEq

/-- `Node.get_output_value`: KeyError when the name is not a declared
output; return the cached entry when the cache is valid and holds the
name; `_recalculate` when Dirty or the cache is invalid, then read the
fresh cache; otherwise read the (valid) cache, yielding None for a missing
entry.  The third component counts `compute()` invocations. -/
def NodeM.getOutputValue (n : NodeM) (computeRes : Except Unit (List (String × PyVal)))
    (name : String) : Except GErr (Option PyVal) × NodeM × ℕ :=
  if name ∈ n.outputNames then
    if n.cacheValid = true ∧ (n.cache.lookup name).isSome then
      (.ok (n.cache.lookup name), n, 0)
    else if n.state = .dirty ∨ n.cacheValid = false then
      match computeRes with
      | .ok results => (.ok (results.lookup name), n.recalc (.ok results), 1)
      | .error e => (.error .computeFailed, n.recalc (.error e), 1)
    else
      (.ok (n.cache.lookup name), n, 0)
  else (.error .socketNotFound, n, 0)

/-- Global invariant 5 of the spec, node-locally: Clean implies a valid
output cache. -/
def cleanCacheInv (n : NodeM) : Prop := n.state = .clean → n.cacheValid = true

/-! ## Socket-level graph (node_system.Socket / Connection / NodeGraph)

Object identities (Python `uuid4` strings) become natural-number ids.  The
graph owns a flat store of sockets (each knowing its owning node id, as the
Python `Socket.node` back-reference does) and the `NodeGraph.connections`
map as an insertion-ordered list.  Sockets hold connection ids; a
Connection object is recovered from its id through that list.  Node dirty
states are tracked as the list `notDirty` of ids of nodes whose state is
not Dirty — `mark_dirty` reads and writes exactly that distinction of
`state` (plus `_cache_valid`, which it forces to False together with
Dirty). Socket-local value caches (`_cached_value`) are not modelled; no
claim observes them. -/

/-- SocketDirection. -/
inductive SDir where
  | input : SDir
  | output : SDir
deriving DecidableEq

/-- A Socket: identity, owning node, type, direction, name, multi flag and
its registration-ordered connection list. -/
structure SocketM where
  sid : ℕ
  owner : ℕ
  stype : SType
  dir : SDir
  sname : String
  isMulti : Bool
  conns : List ℕ
deriving DecidableEq

/-- A Connection: identity plus its two endpoint socket ids (endpoints are
immutable after construction). -/
structure ConnM where
  cid : ℕ
  outSock : ℕ
  inSock : ℕ
deriving DecidableEq

/-- The NodeGraph: node-id keys in insertion order, the socket store, the
connections map, the not-Dirty node ids, and a fresh-id counter standing in
for uuid generation. -/
structure NG where
  nodes : List ℕ
  sockets : List SocketM
  connections : List ConnM
  notDirty : List ℕ
  freshC : ℕ

/-- A NodeGraph as `NodeGraph.__init__` leaves it. -/
def emptyNG : NG := ⟨[], [], [], [], 0⟩

/-- `Socket.can_connect_to`: different owning nodes, opposite directions,
type compatibility in the `self → other` direction, and free capacity on
every non-multi endpoint. -/
def canConnectTo (a b : SocketM) : Bool :=
  decide (a.owner ≠ b.owner) && decide (a.dir ≠ b.dir) &&
    a.stype.isCompatibleWith b.stype &&
    (a.isMulti || a.conns.isEmpty) && (b.isMulti || b.conns.isEmpty)

/-- `Socket.add_connection` on the socket with id `sid`: append the
connection id unless it is already present. -/
def sockAddConn (ss : List SocketM) (sid cid : ℕ) : List SocketM :=
  ss.map (fun s =>
    if s.sid = sid then
      if cid ∈ s.conns then s else ⟨s.sid, s.owner, s.stype, s.dir, s.sname, s.isMulti, s.conns ++ [cid]⟩
    else s)

/-- The effect of `Socket.remove_connection` on one socket of the store:
on the socket with id `sid`, remove the connection id if present (a
guarded `list.remove`, i.e. `List.erase`); other sockets are untouched. -/
def sockRemovePoint (sid cid : ℕ) (s : SocketM) : SocketM :=
  if s.sid = sid then
    ⟨s.sid, s.owner, s.stype, s.dir, s.sname, s.isMulti, s.conns.erase cid⟩
  else s

/-- `Socket.remove_connection` on the socket with id `sid`. -/
def sockRemoveConn (ss : List SocketM) (sid cid : ℕ) : List SocketM :=
  ss.map (sockRemovePoint sid cid)

/-- `Connection.disconnect`: deregister from the output socket, then from
the input socket. -/
def disconnectConn (ss : List SocketM) (c : ConnM) : List SocketM :=
  sockRemoveConn (sockRemoveConn ss c.outSock c.cid) c.inSock c.cid

/-- Resolve a socket id in the store. -/
def findSocket (g : NG) (sid : ℕ) : Option SocketM :=
  g.sockets.find? (fun s => s.sid = sid)

/-- Resolve a connection id in the graph's map. -/
def findConn (g : NG) (cid : ℕ) : Option ConnM :=
  g.connections.find? (fun c => c.cid = cid)

/-- `node.output_sockets[name]` / `node.input_sockets[name]`: the node's
socket of the given direction and name (sockets were created in
`_init_sockets` order, which the store preserves). -/
def nodeSocket (g : NG) (nid : ℕ) (d : SDir) (name : String) : Option SocketM :=
  g.sockets.find? (fun s => s.owner = nid ∧ s.dir = d ∧ s.sname = name)

/-- The downstream node ids `_propagate_dirty` walks: every output
socket's connections, resolved to the connected input socket's owner. -/
def succs (g : NG) (n : ℕ) : List ℕ :=
  ((g.sockets.filter (fun s => s.owner = n ∧ s.dir = .output)).flatMap
    (fun s => s.conns)).filterMap (fun cid =>
      match findConn g cid with
      | some c =>
          match findSocket g c.inSock with
          | some s => some s.owner
          | none => none
      | none => none)

/-- An upper bound on the length of any `succs g n`: the total number of
connection registrations in the socket store. -/
def connTotal (g : NG) : ℕ := (g.sockets.flatMap SocketM.conns).length

/-- The recursive `mark_dirty(propagate=True)` cascade, linearized with an
explicit continuation stack: marking `n` is running the stack `[n]`; a
node already Dirty (not in `nd`) is popped with no effect (the
short-circuit); otherwise it is dropped from `nd` (set Dirty, cache
invalidated) and its downstream list is pushed IN FRONT of the pending
continuation — exactly the order in which the source's recursion visits
nodes and mutates states.  The fuel only serves Lean's termination
checker; `mdMeasure` fuel always suffices (each step strictly decreases
that measure), so the guard is never the reason a run stops. -/
def mdSteps (g : NG) (fuel : ℕ) (nd : List ℕ) (stack : List ℕ) : List ℕ :=
  match fuel, stack with
  | _, [] => nd
  | 0, _ => nd
  | f + 1, n :: rest =>
      if n ∈ nd then mdSteps g f (nd.erase n) (succs g n ++ rest)
      else mdSteps g f nd rest

/-- Fuel sufficient to drain the stack: every step pops one entry and
pushes at most `connTotal g` new ones, and pushes happen only when the
not-Dirty set shrinks. -/
def mdMeasure (g : NG) (nd stack : List ℕ) : ℕ :=
  stack.length + nd.length * (connTotal g + 1)

/-- Top-level `mark_dirty` on node `n` of the graph. -/
def markDirty (g : NG) (n : ℕ) : NG :=
  ⟨g.nodes, g.sockets, g.connections,
    mdSteps g (mdMeasure g g.notDirty [n]) g.notDirty [n], g.freshC⟩

/-- `NodeGraph.add_node` with a freshly constructed node: register the id
and the node's sockets (state CLEAN, so the id joins `notDirty`). -/
def addNode (g : NG) (nid : ℕ) (socks : List SocketM) : NG :=
  ⟨g.nodes ++ [nid], g.sockets ++ socks, g.connections,
    g.notDirty ++ [nid], g.freshC⟩

/-- Errors of `connect_nodes`: KeyError from the four name/id lookups, or
the ValueError the Connection constructor raises when
`can_connect_to` fails. -/
inductive CErr where
  | keyErr : CErr
  | connErr : CErr
deriving DecidableEq

/-- `NodeGraph.connect_nodes`: resolve the four identifiers, construct a
Connection (validation before any registration, so failure has no side
effect), register it on both endpoint sockets and in the graph's map, then
mark the input node dirty.  Returns the new graph and the connection id. -/
def connectNodes (g : NG) (outNid : ℕ) (outName : String) (inNid : ℕ) (inName : String) :
    Except CErr (NG × ℕ) :=
  if outNid ∈ g.nodes ∧ inNid ∈ g.nodes then
    match nodeSocket g outNid .output outName, nodeSocket g inNid .input inName with
    | some so, some si =>
        if canConnectTo so si then
          let c : ConnM := ⟨g.freshC, so.sid, si.sid⟩
          let ss := sockAddConn (sockAddConn g.sockets so.sid c.cid) si.sid c.cid
          let g1 : NG := ⟨g.nodes, ss, g.connections ++ [c], g.notDirty, g.freshC + 1⟩
          .ok (markDirty g1 inNid, c.cid)
        else .error .connErr
    | _, _ => .error .keyErr
  else .error .keyErr

/-- The connection ids found on the node's input sockets, then on its
output sockets — the connections `disconnect_all` severs.  The source
snapshots each socket's list just before disconnecting it; since a
validated Connection never joins two sockets of the same node, no
disconnect of one of the node's connections can touch another socket of
the same node, and the upfront snapshot taken here is the same list. -/
def nodeConnIds (g : NG) (nid : ℕ) : List ℕ :=
  ((g.sockets.filter (fun s => s.owner = nid ∧ s.dir = .input)).flatMap
    (fun s => s.conns)) ++
  ((g.sockets.filter (fun s => s.owner = nid ∧ s.dir = .output)).flatMap
    (fun s => s.conns))

/-- Disconnect each listed connection id in order: resolve it in the
graph's map and deregister it from both endpoint sockets (unresolvable ids
are skipped; they do not arise in well-formed states). -/
def removalFold (g : NG) (cids : List ℕ) (ss : List SocketM) : List SocketM :=
  match cids with
  | [] => ss
  | cid :: rest =>
      match findConn g cid with
      | some c => removalFold g rest (disconnectConn ss c)
      | none => removalFold g rest ss

/-- `Node.disconnect_all` for the node `nid`. -/
def disconnectAllNode (g : NG) (nid : ℕ) : NG :=
  ⟨g.nodes, removalFold g (nodeConnIds g nid) g.sockets, g.connections,
    g.notDirty, g.freshC⟩

/-- `NodeGraph.remove_node`: when present, `disconnect_all` the node and
delete it from the node map.  Nothing is removed from the graph's
`connections` map (mirroring the source). -/
def removeNode (g : NG) (nid : ℕ) : NG :=
  if nid ∈ g.nodes then
    let g1 := disconnectAllNode g nid
    ⟨g1.nodes.erase nid, g1.sockets, g1.connections, g1.notDirty, g1.freshC⟩
  else g

/-- The producer-node → consumer-node edges the graph's connections
induce. -/
def connEdges (g : NG) : List (ℕ × ℕ) :=
  g.connections.filterMap (fun c =>
    match findSocket g c.outSock, findSocket g c.inSock with
    | some so, some si => some (so.owner, si.owner)
    | _, _ => none)

/-- The "produces value for" relation between node ids. -/
def edgeRelNG (g : NG) (a b : ℕ) : Prop := (a, b) ∈ connEdges g

/-! ## Execution ordering (NodeGraph.get_execution_order)

`get_execution_order` observes the graph only through (a) the node-id keys
of `NodeGraph.nodes` in insertion order and (b) the multiset of
Connections, each contributing one (producer-node, consumer-node) pair: the
in-degree pass counts each input socket's connections, the decrement pass
walks each popped node's output sockets' connections.  `ExecGraph` records
exactly these observations; a `NodeGraph` whose connections are registered
on both endpoint sockets (which every mutation maintains) projects onto it
with `nodes := node keys` and `edges := one pair per connection`.  The
method reads but never writes the graph, so it is embedded as a pure
function of `ExecGraph`. -/

/-- The projection of a NodeGraph that `get_execution_order` reads. -/
structure ExecGraph where
  nodes : List ℕ
  edges : List (ℕ × ℕ)

/-- Well-formedness: node keys are distinct (they are dict keys) and every
connection joins nodes of the graph. -/
def ExecGraph.WF (g : ExecGraph) : Prop :=
  g.nodes.Nodup ∧ ∀ e ∈ g.edges, e.1 ∈ g.nodes ∧ e.2 ∈ g.nodes

/-- An edge of the producer → consumer relation. -/
def edgeRelE (g : ExecGraph) (a b : ℕ) : Prop := (a, b) ∈ g.edges

/-- No directed cycle (through one or more connections). -/
def ExecGraph.Acyclic (g : ExecGraph) : Prop :=
  ∀ n, ¬ Relation.TransGen (edgeRelE g) n n

/-- The number of connections into `n` whose producer has not yet been
emitted into `res` — the meaning of the algorithm's mutable `in_degree`
entry for `n` once the nodes of `res` have been processed. -/
def cnt (g : ExecGraph) (res : List ℕ) (n : ℕ) : ℕ :=
  (g.edges.filter (fun e => decide (e.2 = n ∧ e.1 ∉ res))).length

/-- The decrement pass for one popped node: walk its outgoing connection
list in order, decrement each consumer's in-degree, and append each
consumer whose degree just reached zero to the pending queue (in walk
order), as the `for output_socket ... for connection ...` loop does.
Degrees are integers, exactly as in the source. -/
def processOuts (deg : ℕ → ℤ) (outs : List (ℕ × ℕ)) : (ℕ → ℤ) × List ℕ :=
  match outs with
  | [] => (deg, [])
  | e :: es =>
      let d := deg e.2 - 1
      let deg2 : ℕ → ℤ := fun m => if m = e.2 then d else deg m
      let r := processOuts deg2 es
      (r.1, if d = 0 then e.2 :: r.2 else r.2)

/-- Kahn's main loop: `while queue: pop(0); append to result; decrement
consumers, enqueueing fresh zeros`.  The fuel only bounds the iteration
count for Lean; `g.nodes.length` iterations always suffice, because each
iteration appends one element of `g.nodes` to `result` without repetition
(established in the soundness invariant below), so the fuel guard is never
the reason the loop stops on a well-formed graph. -/
def kahnLoop (g : ExecGraph) (fuel : ℕ) (deg : ℕ → ℤ) (queue result : List ℕ) : List ℕ :=
  match fuel, queue with
  | 0, _ => result
  | _ + 1, [] => result
  | f + 1, x :: qs =>
      let pr := processOuts deg (g.edges.filter (fun e => decide (e.1 = x)))
      kahnLoop g f pr.1 (qs ++ pr.2) (result ++ [x])

/-- Initial in-degree of `n`: its total number of incoming connections. -/
def inDeg0 (g : ExecGraph) (n : ℕ) : ℤ :=
  ((g.edges.filter (fun e => decide (e.2 = n))).length : ℤ)

/-- The complete run of the loop: degrees from the counting pass, queue
seeded with the zero-in-degree nodes in insertion order, empty result. -/
def kahnRun (g : ExecGraph) : List ℕ :=
  kahnLoop g g.nodes.length (inDeg0 g)
    (g.nodes.filter (fun n => decide (inDeg0 g n = 0))) []

/-- `NodeGraph.get_execution_order`: run Kahn's algorithm; if the result
misses nodes, a cycle exists and a ValueError ("Cycle detected in node
graph") is raised, embedded as `.error`. -/
def getExecutionOrder (g : ExecGraph) : Except String (List ℕ) :=
  if (kahnRun g).length = g.nodes.length then .ok (kahnRun g)
  else .error "Cycle detected in node graph"

/-! ## Invariants and well-formedness predicates -/

/-- A node being added is freshly constructed: unused id, sockets owned by
it with empty connection lists and ids unused in the graph. -/
def FreshNodeOk (g : NG) (nid : ℕ) (socks : List SocketM) : Prop :=
  nid ∉ g.nodes ∧ (∀ s ∈ socks, s.owner = nid ∧ s.conns = []) ∧
    (socks.map SocketM.sid).Nodup ∧ ∀ s ∈ socks, ∀ t ∈ g.sockets, s.sid ≠ t.sid

/-- Graphs produced from the empty graph by the two constructive mutations
of the public contract, `add_node` and `connect_nodes` (the latter kept
only when it succeeds). -/
inductive ReachableNG : NG → Prop where
  | base : ReachableNG emptyNG
  | addN {g : NG} {nid : ℕ} {socks : List SocketM} :
      ReachableNG g → FreshNodeOk g nid socks → ReachableNG (addNode g nid socks)
  | connectN {g gNew : NG} {a b : ℕ} {s t : String} {c : ℕ} :
      ReachableNG g → connectNodes g a s b t = Except.ok (gNew, c) →
      ReachableNG gNew

/-- Global invariants 1 and 2 of the spec for one connection: its
endpoints are an output socket and an input socket of two different nodes
with compatible types (in producer → consumer direction). -/
def ConnWitness (g : NG) (c : ConnM) : Prop :=
  ∃ so ∈ g.sockets, ∃ si ∈ g.sockets,
    so.sid = c.outSock ∧ si.sid = c.inSock ∧
    so.dir = .output ∧ si.dir = .input ∧ so.owner ≠ si.owner ∧
    so.stype.isCompatibleWith si.stype = true

/-- Structural invariants maintained at every constructive mutation:
socket identities are distinct, every registered connection satisfies
`ConnWitness`, and no non-multi socket holds more than one connection
(global invariants 1–3 — acyclicity, invariant 4, is NOT among them). -/
def StructInv (g : NG) : Prop :=
  (g.sockets.map SocketM.sid).Nodup ∧
  (∀ c ∈ g.connections, ConnWitness g c) ∧
  (∀ s ∈ g.sockets, s.isMulti = false → s.conns.length ≤ 1)

/-- Registration consistency of a graph state: distinct node keys, socket
ids, connection ids; duplicate-free per-socket connection lists; every
connection listed on both its endpoint sockets; every listed connection id
backed by a connection of the map having that socket as an endpoint. -/
def GraphReg (g : NG) : Prop :=
  g.nodes.Nodup ∧
  (g.sockets.map SocketM.sid).Nodup ∧
  (g.connections.map ConnM.cid).Nodup ∧
  (∀ s ∈ g.sockets, s.conns.Nodup) ∧
  (∀ c ∈ g.connections, ∀ s ∈ g.sockets,
      (s.sid = c.outSock ∨ s.sid = c.inSock) → c.cid ∈ s.conns) ∧
  (∀ s ∈ g.sockets, ∀ cid ∈ s.conns,
      ∃ c ∈ g.connections, c.cid = cid ∧ (c.outSock = s.sid ∨ c.inSock = s.sid))

/-- The connection `c` has an endpoint socket owned by node `nid`. -/
def TouchesNode (g : NG) (c : ConnM) (nid : ℕ) : Prop :=
  ∃ t ∈ g.sockets, t.owner = nid ∧ (t.sid = c.outSock ∨ t.sid = c.inSock)

/-! ## Concrete scenario graphs used by counterexamples and witnesses -/

/-- Extract the graph of a successful `connect_nodes` call. -/
def exGetG (r : Except CErr (NG × ℕ)) (d : NG) : NG :=
  match r with
  | .ok p => p.1
  | .error _ => d

/-- An input socket for the concrete scenarios. -/
def mkIn (sid owner : ℕ) (t : SType) : SocketM := ⟨sid, owner, t, .input, "in", false, []⟩

/-- An output socket for the concrete scenarios. -/
def mkOut (sid owner : ℕ) (t : SType) : SocketM := ⟨sid, owner, t, .output, "out", false, []⟩

/-- Two Number-typed nodes, not yet wired. -/
def twoNodesG : NG :=
  addNode (addNode emptyNG 1 [mkIn 1 1 .number, mkOut 2 1 .number])
    2 [mkIn 3 2 .number, mkOut 4 2 .number]

/-- The two nodes with the connection 1 → 2 (node 1's "out" feeding node
2's "in"). -/
def twoWiredG : NG := exGetG (connectNodes twoNodesG 1 "out" 2 "in") emptyNG

/-- The two nodes additionally wired 2 → 1, closing a directed cycle. -/
def cycleNG : NG := exGetG (connectNodes twoWiredG 2 "out" 1 "in") emptyNG

/-- Three chained Geometry nodes, not yet wired. -/
def chainBase : NG :=
  addNode (addNode (addNode emptyNG 1 [mkIn 1 1 .geometry, mkOut 2 1 .geometry])
      2 [mkIn 3 2 .geometry, mkOut 4 2 .geometry])
    3 [mkIn 5 3 .geometry, mkOut 6 3 .geometry]

/-- The chain A → B → C (nodes 1 → 2 → 3). -/
def chainG : NG :=
  exGetG (connectNodes (exGetG (connectNodes chainBase 1 "out" 2 "in") emptyNG)
    2 "out" 3 "in") emptyNG

/-- The chain with every node in a non-Dirty state. -/
def chainAllClean : NG :=
  ⟨chainG.nodes, chainG.sockets, chainG.connections, [1, 2, 3], chainG.freshC⟩

/-- The chain with B (node 2) already Dirty and A, C non-Dirty. -/
def chainBDirty : NG :=
  ⟨chainG.nodes, chainG.sockets, chainG.connections, [1, 3], chainG.freshC⟩

/-- Execution-order scenario: the chain 1 → 2 → 3. -/
def chainE : ExecGraph := ⟨[1, 2, 3], [(1, 2), (2, 3)]⟩

/-- Execution-order scenario: the two-node cycle. -/
def cycleE : ExecGraph := ⟨[1, 2], [(1, 2), (2, 1)]⟩

/-- Invariant of Kahn's main loop, tying the mutable in-degree map, the
queue and the emitted prefix together: emitted nodes and queued nodes are
distinct graph nodes; `deg` counts, for each node, the connections whose
producer has not been emitted; a node neither emitted nor queued still
waits for some producer; a queued node's producers are all emitted; and
the emitted prefix is topologically sorted. -/
structure KInv (g : ExecGraph) (deg : ℕ → ℤ) (queue result : List ℕ) : Prop where
  resNodup : result.Nodup
  qNodup : queue.Nodup
  disjQR : ∀ n ∈ queue, n ∉ result
  resMem : ∀ n ∈ result, n ∈ g.nodes
  qMem : ∀ n ∈ queue, n ∈ g.nodes
  degEq : ∀ n, deg n = (cnt g result n : ℤ)
  pending : ∀ n ∈ g.nodes, n ∉ result → n ∉ queue → 0 < cnt g result n
  qReady : ∀ n ∈ queue, cnt g result n = 0
  ordering : ∀ e ∈ g.edges, e.2 ∈ result →
    e.1 ∈ result ∧ result.indexOf e.1 < result.indexOf e.2

/-- What the loop guarantees about its final emission list: distinct
graph nodes in topological order, and every node left out still waits for
a producer that was also left out. -/
structure KOut (g : ExecGraph) (L : List ℕ) : Prop where
  nodup : L.Nodup
  mem : ∀ n ∈ L, n ∈ g.nodes
  ordering : ∀ e ∈ g.edges, e.2 ∈ L →
    e.1 ∈ L ∧ L.indexOf e.1 < L.indexOf e.2
  noSource : ∀ n ∈ g.nodes, n ∉ L → 0 < cnt g L n

/-! ## Claim C5 — convert_value never raises -/

/-- Claim C5 refuted: `VectorType(2).convert_value(["abc"])` raises an
uncaught ValueError (the elementwise `float("abc")` is not inside any
try/except), instead of returning the all-zero vector the claim
promises. -/
theorem C5_counterexample :
    convertValue (SType.vector 2) (PyVal.vList [PyVal.vStr "abc"]) = .error () := rfl

/-- Claim C5 as amended: `convert_value` never raises for the Number,
Geometry, String, Boolean and Any variants, but CAN raise for Vector (list
with a non-numeric element) and Color (malformed hex digits); the
never-raise / zero-identity-fallback guarantee is provided by
`auto_convert_value`, which catches the exception and substitutes the
type's zero/identity value. -/
theorem C5_amended :
    (∀ v : PyVal,
      exOk (convertValue SType.number v) = true ∧
      exOk (convertValue SType.geometry v) = true ∧
      exOk (convertValue SType.string v) = true ∧
      exOk (convertValue SType.boolean v) = true ∧
      exOk (convertValue SType.anyT v) = true) ∧
    exOk (convertValue (SType.vector 2) (PyVal.vList [PyVal.vStr "abc"])) = false ∧
    exOk (convertValue SType.color (PyVal.vStr "#GGG")) = false ∧
    (∀ (t : SType) (v : PyVal), convertValue t v = .error () →
      autoConvertValue t v = typeDefaultValue t) := by
  refine ⟨fun v => ⟨?_, rfl, ?_, rfl, rfl⟩, rfl, rfl, ?_⟩
  · cases v with
    | vStr s =>
        show exOk ((numberConvert (.vStr s)).map _) = true
        have h1 : numberConvert (.vStr s) =
            match parseFloatQ s with
            | some q => .ok q
            | none => .ok 0 := rfl
        rw [h1]
        cases parseFloatQ s <;> rfl
    | _ => rfl
  · cases v <;> rfl
  · intro t v h
    unfold autoConvertValue
    rw [h]

/-- Witness for the hypothesis-bearing part of `C5_amended` at the
concrete failing input. -/
theorem C5_amended_witness :
    autoConvertValue (SType.vector 2) (PyVal.vList [PyVal.vStr "abc"]) =
      typeDefaultValue (SType.vector 2) :=
  C5_amended.2.2.2 (SType.vector 2) (PyVal.vList [PyVal.vStr "abc"]) rfl

/-! ## Claim C9 — compatibility asymmetry -/

/-- Claim C9 refuted: a Vector-type producer IS compatible with a
Number-type consumer (`VectorType.is_compatible_with` accepts
NumberType), so the Number/Vector pair the claim exemplifies is
symmetric. -/
theorem C9_counterexample :
    (SType.vector 2).isCompatibleWith SType.number = true := rfl

/-- Claim C9 as amended: compatibility is indeed asymmetric, but not for
the Number/Vector pair (compatible in both directions); the asymmetric
pairs are e.g. Color → Vector (yes) vs Vector → Color (no), and
Boolean → Number (yes) vs Number → Boolean (no). -/
theorem C9_amended :
    SType.number.isCompatibleWith (SType.vector 2) = true ∧
    (SType.vector 2).isCompatibleWith SType.number = true ∧
    SType.color.isCompatibleWith (SType.vector 2) = true ∧
    (SType.vector 2).isCompatibleWith SType.color = false ∧
    SType.boolean.isCompatibleWith SType.number = true ∧
    SType.number.isCompatibleWith SType.boolean = false :=
  ⟨rfl, rfl, rfl, rfl, rfl, rfl⟩

/-! ## Claim C4 — Clean implies valid cache -/

/-- Claim C4 refuted: a freshly constructed Node is in state CLEAN while
its output cache is invalid (`_cache_valid = False`) and empty. -/
theorem C4_counterexample :
    (NodeM.init ["geometry"]).state = NState.clean ∧
    (NodeM.init ["geometry"]).cacheValid = false :=
  ⟨rfl, rfl⟩

/-- Claim C4 as amended: the invariant "Clean implies a valid cache" is
established by every recalculation outcome and preserved by `mark_dirty`
and `get_output_value`, but it does NOT hold for a freshly constructed
node, which starts Clean with an invalid cache; the code compensates by
checking the cache-valid flag independently of the Clean state on every
cache read. -/
theorem C4_amended :
    (∀ n : NodeM, cleanCacheInv n.markDirtyLocal) ∧
    (∀ (n : NodeM) (cr : Except Unit (List (String × PyVal))),
      cleanCacheInv (n.recalc cr)) ∧
    (∀ (n : NodeM) (cr : Except Unit (List (String × PyVal))) (name : String),
      cleanCacheInv n → cleanCacheInv (n.getOutputValue cr name).2.1) ∧
    ¬ cleanCacheInv (NodeM.init ["geometry"]) := by
  refine ⟨?_, ?_, ?_, ?_⟩
  · intro n
    unfold NodeM.markDirtyLocal
    split
    · intro hcl
      rename_i hd
      rw [hcl] at hd
      exact absurd hd (by decide)
    · intro hcl
      simp at hcl
  · intro n cr
    cases cr with
    | ok results => exact fun _ => rfl
    | error e => intro hcl; simp [NodeM.recalc] at hcl
  · intro n cr name hn
    unfold NodeM.getOutputValue
    split
    · split
      · exact hn
      · split
        · cases cr with
          | ok results => exact fun _ => rfl
          | error e => intro hcl; simp [NodeM.recalc] at hcl
        · exact hn
    · exact hn
  · intro h
    exact absurd (h rfl) (by decide)

/-- Witness for the hypothesis-bearing part of `C4_amended`: preservation
through `get_output_value` on a concrete Clean node with a valid cache. -/
theorem C4_amended_witness :
    cleanCacheInv
      ((NodeM.mk NState.clean true [] ["out"]).getOutputValue (.ok []) "out").2.1 :=
  C4_amended.2.2.1 (NodeM.mk NState.clean true [] ["out"]) (.ok []) "out"
    (fun _ => rfl)

/-! ## Claim C7 — cache idempotence -/

/-- Claim C7 confirmed: on a node that is Clean with a valid cache, a
`get_output_value` call for a declared output name returns the cached
entry, leaves the node untouched and performs zero `compute()`
invocations; hence two consecutive calls (with arbitrary, even differing,
prospective compute behaviours `cr`, `cr2`) return identical values with
zero computes in total — in particular at most one. -/
theorem C7_cache_idempotent (n : NodeM)
    (cr cr2 : Except Unit (List (String × PyVal))) (name : String)
    (hname : name ∈ n.outputNames) (hclean : n.state = NState.clean)
    (hvalid : n.cacheValid = true) :
    n.getOutputValue cr name = (.ok (n.cache.lookup name), n, 0) ∧
    n.getOutputValue cr2 name = (.ok (n.cache.lookup name), n, 0) := by
  have key : ∀ cr' : Except Unit (List (String × PyVal)),
      n.getOutputValue cr' name = (.ok (n.cache.lookup name), n, 0) := by
    intro cr'
    unfold NodeM.getOutputValue
    rw [if_pos hname]
    by_cases hl : (n.cache.lookup name).isSome
    · rw [if_pos ⟨hvalid, hl⟩]
    · rw [if_neg (fun hconj => hl hconj.2), if_neg]
      rintro (hd | hf)
      · rw [hclean] at hd; exact absurd hd (by decide)
      · rw [hvalid] at hf; exact absurd hf (by decide)
  exact ⟨key cr, key cr2⟩

/-- Witness for `C7_cache_idempotent` on a concrete Clean node with a
cached value. -/
theorem C7_witness :
    (NodeM.mk NState.clean true [("out", PyVal.vFloat 3)] ["out"]).getOutputValue
        (.ok []) "out" =
      (.ok ((NodeM.mk NState.clean true [("out", PyVal.vFloat 3)] ["out"]).cache.lookup
        "out"), NodeM.mk NState.clean true [("out", PyVal.vFloat 3)] ["out"], 0) ∧
    (NodeM.mk NState.clean true [("out", PyVal.vFloat 3)] ["out"]).getOutputValue
        (.error ()) "out" =
      (.ok ((NodeM.mk NState.clean true [("out", PyVal.vFloat 3)] ["out"]).cache.lookup
        "out"), NodeM.mk NState.clean true [("out", PyVal.vFloat 3)] ["out"], 0) :=
  C7_cache_idempotent (NodeM.mk NState.clean true [("out", PyVal.vFloat 3)] ["out"])
    (.ok []) (.error ()) "out" (by decide) rfl rfl

/-! ## Claim C10 — repeated disconnect is a no-op -/

/-- Removing a connection id changes no socket identity. -/
theorem sockRemovePoint_sid (sid cid : ℕ) (s : SocketM) :
    (sockRemovePoint sid cid s).sid = s.sid := by
  unfold sockRemovePoint; split <;> rfl

/-- Removing a connection id changes no socket owner. -/
theorem sockRemovePoint_owner (sid cid : ℕ) (s : SocketM) :
    (sockRemovePoint sid cid s).owner = s.owner := by
  unfold sockRemovePoint; split <;> rfl

/-- Removing a connection id changes no socket direction. -/
theorem sockRemovePoint_dir (sid cid : ℕ) (s : SocketM) :
    (sockRemovePoint sid cid s).dir = s.dir := by
  unfold sockRemovePoint; split <;> rfl

/-- Deregistration only ever shrinks a connection list. -/
theorem sockRemovePoint_sublist (sid cid : ℕ) (s : SocketM) :
    List.Sublist (sockRemovePoint sid cid s).conns s.conns := by
  unfold sockRemovePoint; split
  · exact s.conns.erase_sublist cid
  · exact List.Sublist.refl _

/-- Deregistering an id that is not listed is a no-op — the membership
guard of `remove_connection`. -/
theorem sockRemovePoint_id (sid cid : ℕ) (s : SocketM) (h : cid ∉ s.conns) :
    sockRemovePoint sid cid s = s := by
  unfold sockRemovePoint; split
  · rw [List.erase_of_not_mem h]
  · rfl

/-- On the targeted socket, deregistration removes the id entirely when
it was listed at most once. -/
theorem sockRemovePoint_removes (sid cid : ℕ) (s : SocketM)
    (hcnt : s.conns.count cid ≤ 1) (hs : s.sid = sid) :
    cid ∉ (sockRemovePoint sid cid s).conns := by
  unfold sockRemovePoint
  rw [if_pos hs, ← List.count_eq_zero, List.count_erase_self]
  omega

/-- Deregistration never introduces an id. -/
theorem sockRemovePoint_not_mem (sid cid cid2 : ℕ) (s : SocketM)
    (h : cid2 ∉ s.conns) : cid2 ∉ (sockRemovePoint sid cid s).conns :=
  fun hm => h ((sockRemovePoint_sublist sid cid s).subset hm)

/-- Claim C10 confirmed: disconnecting a connection a second time raises
no error (both `remove_connection` calls are membership-guarded, embedded
as total `List.erase`) and leaves every socket's connection list exactly
as the first disconnect left it, provided no list registered the
connection twice (`add_connection`'s membership guard maintains this). -/
theorem C10_disconnect_idem (ss : List SocketM) (c : ConnM)
    (h : ∀ s ∈ ss, s.conns.count c.cid ≤ 1) :
    disconnectConn (disconnectConn ss c) c = disconnectConn ss c := by
  unfold disconnectConn sockRemoveConn
  simp only [List.map_map]
  apply List.map_congr_left
  intro s hs
  simp only [Function.comp]
  by_cases h1 : s.sid = c.outSock
  · have hu : c.cid ∉ (sockRemovePoint c.inSock c.cid
        (sockRemovePoint c.outSock c.cid s)).conns :=
      sockRemovePoint_not_mem _ _ _ _
        (sockRemovePoint_removes _ _ _ (h s hs) h1)
    rw [sockRemovePoint_id _ _ _ hu, sockRemovePoint_id _ _ _ hu]
  · by_cases h2 : s.sid = c.inSock
    · have hmid : c.cid ∉ (sockRemovePoint c.inSock c.cid
          (sockRemovePoint c.outSock c.cid s)).conns := by
        apply sockRemovePoint_removes
        · calc (sockRemovePoint c.outSock c.cid s).conns.count c.cid ≤
              s.conns.count c.cid := (sockRemovePoint_sublist _ _ _).count_le _
            _ ≤ 1 := h s hs
        · rw [sockRemovePoint_sid]; exact h2
      rw [sockRemovePoint_id _ _ _ hmid, sockRemovePoint_id _ _ _ hmid]
    · have e1 : sockRemovePoint c.outSock c.cid s = s := by
        unfold sockRemovePoint; rw [if_neg h1]
      have e2 : sockRemovePoint c.inSock c.cid s = s := by
        unfold sockRemovePoint; rw [if_neg h2]
      rw [e1, e2, e1, e2]

/-- Witness for `C10_disconnect_idem` on the concrete wired two-node
graph's sockets and its single connection. -/
theorem C10_witness :
    disconnectConn (disconnectConn twoWiredG.sockets ⟨0, 2, 3⟩) ⟨0, 2, 3⟩ =
      disconnectConn twoWiredG.sockets ⟨0, 2, 3⟩ :=
  C10_disconnect_idem twoWiredG.sockets ⟨0, 2, 3⟩ (by decide)

/-! ## Claim C1 — dirty propagation -/

/-- A dirty-propagation run never returns a node to the not-Dirty set. -/
theorem mdSteps_sublist (g : NG) :
    ∀ (fuel : ℕ) (nd stack : List ℕ), List.Sublist (mdSteps g fuel nd stack) nd := by
  intro fuel
  induction fuel with
  | zero =>
      intro nd stack
      cases stack <;> exact List.Sublist.refl nd
  | succ f ih =>
      intro nd stack
      cases stack with
      | nil => exact List.Sublist.refl nd
      | cons n rest =>
          show List.Sublist (mdSteps g (f + 1) nd (n :: rest)) nd
          unfold mdSteps
          split
          · exact (ih _ _).trans (List.erase_sublist n nd)
          · exact ih _ _

/-- Length of the downstream list is bounded by the total number of
connection registrations. -/
theorem succs_len_le (g : NG) (n : ℕ) : (succs g n).length ≤ connTotal g := by
  unfold succs connTotal
  refine (List.length_filterMap_le _ _).trans ?_
  have : ∀ (ss : List SocketM) (p : SocketM → Bool),
      ((ss.filter p).flatMap SocketM.conns).length ≤
        (ss.flatMap SocketM.conns).length := by
    intro ss p
    induction ss with
    | nil => simp
    | cons s tl ih =>
        rw [List.filter_cons]
        by_cases hp : p s
        · rw [if_pos hp]
          simp only [List.flatMap_cons, List.length_append]
          omega
        · rw [if_neg hp]
          simp only [List.flatMap_cons, List.length_append]
          omega
  exact this _ _

/-- One erase step strictly shrinks the fuel measure. -/
theorem mdMeasure_step (g : NG) (nd : List ℕ) (n : ℕ) (rest : List ℕ)
    (hn : n ∈ nd) :
    mdMeasure g (nd.erase n) (succs g n ++ rest) + 1 ≤
      mdMeasure g nd (n :: rest) := by
  unfold mdMeasure
  have hlen : (nd.erase n).length = nd.length - 1 := List.length_erase_of_mem hn
  have hpos : 0 < nd.length := List.length_pos.mpr (List.ne_nil_of_mem hn)
  have hs := succs_len_le g n
  rw [hlen, List.length_append, List.length_cons]
  have hmul : (nd.length - 1) * (connTotal g + 1) =
      nd.length * (connTotal g + 1) - (connTotal g + 1) := Nat.sub_one_mul _ _
  have hge : connTotal g + 1 ≤ nd.length * (connTotal g + 1) :=
    Nat.le_mul_of_pos_left _ hpos
  omega

/-- Every node of the pending stack is Dirty when an adequately fuelled
run returns. -/
theorem mdSteps_stack_out (g : NG) :
    ∀ (fuel : ℕ) (nd stack : List ℕ), nd.Nodup →
      mdMeasure g nd stack ≤ fuel →
      ∀ m ∈ stack, m ∉ mdSteps g fuel nd stack := by
  intro fuel
  induction fuel with
  | zero =>
      intro nd stack hnd hf m hm
      unfold mdMeasure at hf
      have hlen : stack.length = 0 := by omega
      rw [List.length_eq_zero] at hlen
      subst hlen
      cases hm
  | succ f ih =>
      intro nd stack hnd hf m hm
      cases stack with
      | nil => cases hm
      | cons n rest =>
          show m ∉ mdSteps g (f + 1) nd (n :: rest)
          unfold mdSteps
          by_cases hn : n ∈ nd
          · rw [if_pos hn]
            have hf2 : mdMeasure g (nd.erase n) (succs g n ++ rest) ≤ f := by
              have := mdMeasure_step g nd n rest hn
              omega
            rcases List.mem_cons.mp hm with hEq | hR
            · subst hEq
              intro hcontra
              exact hnd.not_mem_erase
                ((mdSteps_sublist g f (nd.erase m) (succs g m ++ rest)).subset hcontra)
            · exact ih (nd.erase n) (succs g n ++ rest) (hnd.erase n) hf2 m
                (List.mem_append_right _ hR)
          · rw [if_neg hn]
            have hf2 : mdMeasure g nd rest ≤ f := by
              unfold mdMeasure at hf ⊢
              simp only [List.length_cons] at hf
              omega
            rcases List.mem_cons.mp hm with hEq | hR
            · subst hEq
              intro hcontra
              exact hn ((mdSteps_sublist g f nd rest).subset hcontra)
            · exact ih nd rest hnd hf2 m hR

/-- Once a previously non-Dirty node has been marked Dirty by a run,
every one of its downstream nodes is Dirty when that run returns. -/
theorem mdSteps_succs_closed (g : NG) :
    ∀ (fuel : ℕ) (nd stack : List ℕ), nd.Nodup →
      mdMeasure g nd stack ≤ fuel →
      ∀ m, m ∈ nd → m ∉ mdSteps g fuel nd stack →
      ∀ z ∈ succs g m, z ∉ mdSteps g fuel nd stack := by
  intro fuel
  induction fuel with
  | zero =>
      intro nd stack hnd hf m hmnd hmout z hz
      exfalso
      apply hmout
      cases stack <;> exact hmnd
  | succ f ih =>
      intro nd stack hnd hf m hmnd hmout z hz
      cases stack with
      | nil => exact absurd hmnd hmout
      | cons n rest =>
          revert hmout
          show m ∉ mdSteps g (f + 1) nd (n :: rest) →
            z ∉ mdSteps g (f + 1) nd (n :: rest)
          unfold mdSteps
          by_cases hn : n ∈ nd
          · rw [if_pos hn]
            intro hmout
            have hf2 : mdMeasure g (nd.erase n) (succs g n ++ rest) ≤ f := by
              have := mdMeasure_step g nd n rest hn
              omega
            by_cases hmn : m = n
            · subst hmn
              exact mdSteps_stack_out g f (nd.erase m) (succs g m ++ rest)
                (hnd.erase m) hf2 z (List.mem_append_left _ hz)
            · exact ih (nd.erase n) (succs g n ++ rest) (hnd.erase n) hf2 m
                ((List.mem_erase_of_ne hmn).mpr hmnd) hmout z hz
          · rw [if_neg hn]
            intro hmout
            have hf2 : mdMeasure g nd rest ≤ f := by
              unfold mdMeasure at hf ⊢
              simp only [List.length_cons] at hf
              omega
            exact ih nd rest hnd hf2 m hmnd hmout z hz

/-- Claim C1 refuted: in the concrete chain A→B→C (nodes 1→2→3, edges via
the registered connections) with B already Dirty and A, C not Dirty,
calling `mark_dirty()` on A leaves C not Dirty — the short-circuit stops
the descent at the already-Dirty B permanently, not merely within the
current call. -/
theorem C1_counterexample :
    connEdges chainBDirty = [(1, 2), (2, 3)] ∧
    chainBDirty.notDirty = [1, 3] ∧
    (markDirty chainBDirty 1).notDirty = [3] := by
  refine ⟨by decide, rfl, by decide⟩

/-- Claim C1 as amended: provided A and B are not already Dirty when the
call starts, `mark_dirty()` on A reaches through the chain — A, B and C
are all Dirty afterwards (C in any prior state).  When B is already Dirty
before the call, propagation stops at B; see the counterexample. -/
theorem C1_amended (g : NG) (a b c : ℕ)
    (hab : b ∈ succs g a) (hbc : c ∈ succs g b)
    (ha : a ∈ g.notDirty) (hb : b ∈ g.notDirty)
    (hnd : g.notDirty.Nodup) :
    a ∉ (markDirty g a).notDirty ∧ b ∉ (markDirty g a).notDirty ∧
      c ∉ (markDirty g a).notDirty := by
  have hfuel : mdMeasure g g.notDirty [a] ≤ mdMeasure g g.notDirty [a] :=
    le_refl _
  have hAout : a ∉ mdSteps g (mdMeasure g g.notDirty [a]) g.notDirty [a] :=
    mdSteps_stack_out g _ _ _ hnd hfuel a (List.mem_singleton_self a)
  have hBout : b ∉ mdSteps g (mdMeasure g g.notDirty [a]) g.notDirty [a] :=
    mdSteps_succs_closed g _ _ _ hnd hfuel a ha hAout b hab
  have hCout : c ∉ mdSteps g (mdMeasure g g.notDirty [a]) g.notDirty [a] :=
    mdSteps_succs_closed g _ _ _ hnd hfuel b hb hBout c hbc
  exact ⟨hAout, hBout, hCout⟩

/-- Witness for `C1_amended` on the concrete all-clean chain. -/
theorem C1_amended_witness :
    1 ∉ (markDirty chainAllClean 1).notDirty ∧
    2 ∉ (markDirty chainAllClean 1).notDirty ∧
    3 ∉ (markDirty chainAllClean 1).notDirty :=
  C1_amended chainAllClean 1 2 3 (by decide) (by decide) (by decide)
    (by decide) (by decide)

/-! ## Claim C3 — acyclicity as a mutation-time invariant -/

/-- Registering a connection id changes no socket identity. -/
theorem sockAddConn_map_sid (ss : List SocketM) (sid cid : ℕ) :
    (sockAddConn ss sid cid).map SocketM.sid = ss.map SocketM.sid := by
  unfold sockAddConn
  rw [List.map_map]
  apply List.map_congr_left
  intro s _
  by_cases h1 : s.sid = sid <;> by_cases h2 : cid ∈ s.conns <;>
    simp [Function.comp, h1, h2]

/-- Registering a connection id preserves each socket's identity, owner,
direction, type and multi flag, and either keeps or appends to its
connection list. -/
theorem sockAddConn_mem_rev (ss : List SocketM) (sid cid : ℕ) (s2 : SocketM)
    (hs2 : s2 ∈ sockAddConn ss sid cid) :
    ∃ s ∈ ss, s2.sid = s.sid ∧ s2.owner = s.owner ∧ s2.dir = s.dir ∧
      s2.stype = s.stype ∧ s2.isMulti = s.isMulti ∧
      (s2.conns = s.conns ∨ (s2.conns = s.conns ++ [cid] ∧ s.sid = sid)) := by
  unfold sockAddConn at hs2
  rcases List.mem_map.mp hs2 with ⟨s, hs, hmap⟩
  refine ⟨s, hs, ?_⟩
  by_cases h1 : s.sid = sid <;> by_cases h2 : cid ∈ s.conns <;>
    simp [h1, h2] at hmap <;> subst hmap <;> simp [h1, h2]

/-- Forward transport: each socket survives registration with its
identity and attributes intact. -/
theorem sockAddConn_mem_fwd (ss : List SocketM) (sid cid : ℕ) (s : SocketM)
    (hs : s ∈ ss) :
    ∃ s2 ∈ sockAddConn ss sid cid, s2.sid = s.sid ∧ s2.owner = s.owner ∧
      s2.dir = s.dir ∧ s2.stype = s.stype := by
  unfold sockAddConn
  refine ⟨_, List.mem_map_of_mem _ hs, ?_⟩
  by_cases h1 : s.sid = sid <;> by_cases h2 : cid ∈ s.conns <;> simp [h1, h2]

/-- Inversion of a successful `connect_nodes` call: the four lookups
succeeded, validation passed, and the result graph is the input graph with
the connection registered on both sockets and in the map, a bumped id
counter, and the input node marked dirty. -/
theorem connectNodes_ok_inv {g : NG} {a : ℕ} {s : String} {b : ℕ} {t : String}
    {gNew : NG} {cid : ℕ}
    (h : connectNodes g a s b t = Except.ok (gNew, cid)) :
    ∃ so si, nodeSocket g a .output s = some so ∧
      nodeSocket g b .input t = some si ∧
      canConnectTo so si = true ∧ cid = g.freshC ∧
      gNew = markDirty ⟨g.nodes,
        sockAddConn (sockAddConn g.sockets so.sid g.freshC) si.sid g.freshC,
        g.connections ++ [⟨g.freshC, so.sid, si.sid⟩],
        g.notDirty, g.freshC + 1⟩ b := by
  unfold connectNodes at h
  split at h
  · split at h
    · rename_i so2 si2 heq1 heq2
      split at h
      · rename_i hcan
        simp only [Except.ok.injEq, Prod.mk.injEq] at h
        exact ⟨so2, si2, heq1, heq2, hcan, h.2.symm, h.1.symm⟩
      · simp at h
    · simp at h
  · simp at h

/-- `StructInv` is preserved by `add_node` with a fresh node. -/
theorem structInv_addNode (g : NG) (nid : ℕ) (socks : List SocketM)
    (hf : FreshNodeOk g nid socks) (hi : StructInv g) :
    StructInv (addNode g nid socks) := by
  obtain ⟨hsid, hconn, hcap⟩ := hi
  obtain ⟨hnid, hempty, hnodup, hfresh⟩ := hf
  refine ⟨?_, ?_, ?_⟩
  · show ((g.sockets ++ socks).map SocketM.sid).Nodup
    rw [List.map_append, List.nodup_append]
    refine ⟨hsid, hnodup, ?_⟩
    intro x hx hx2
    rcases List.mem_map.mp hx with ⟨tOld, htOld, rfl⟩
    rcases List.mem_map.mp hx2 with ⟨sNew, hsNew, hEq⟩
    exact hfresh sNew hsNew tOld htOld hEq
  · intro c hc
    rcases hconn c hc with ⟨so, hso, si, hsi, hrest⟩
    exact ⟨so, List.mem_append_left _ hso, si, List.mem_append_left _ hsi, hrest⟩
  · intro sk hsk hm
    rcases List.mem_append.mp hsk with hOld | hNew
    · exact hcap sk hOld hm
    · rw [(hempty sk hNew).2]
      simp

/-- `StructInv` is preserved by a successful `connect_nodes`. -/
theorem structInv_connect {g : NG} {a : ℕ} {s : String} {b : ℕ} {t : String}
    {gNew : NG} {cid : ℕ}
    (h : connectNodes g a s b t = Except.ok (gNew, cid))
    (hi : StructInv g) : StructInv gNew := by
  obtain ⟨hsid, hconn, hcap⟩ := hi
  rcases connectNodes_ok_inv h with ⟨so, si, hso, hsi, hcan, hcid, hgNew⟩
  subst hgNew
  have hsoMem : so ∈ g.sockets := List.mem_of_find?_eq_some hso
  have hsiMem : si ∈ g.sockets := List.mem_of_find?_eq_some hsi
  have hsoP := List.find?_some hso
  have hsiP := List.find?_some hsi
  simp only [decide_eq_true_eq] at hsoP hsiP
  have hcan2 := hcan
  unfold canConnectTo at hcan2
  simp only [Bool.and_eq_true, decide_eq_true_eq, Bool.or_eq_true,
    List.isEmpty_iff] at hcan2
  obtain ⟨⟨⟨⟨hown, _⟩, hcompat⟩, hsoCap⟩, hsiCap⟩ := hcan2
  have hsosi : so ≠ si := fun hEq => hown (by rw [hEq])
  have hsidNe : so.sid ≠ si.sid := fun hEq =>
    hsosi (List.inj_on_of_nodup_map hsid hsoMem hsiMem hEq)
  set ss2 := sockAddConn (sockAddConn g.sockets so.sid g.freshC) si.sid g.freshC
    with hss2
  have hmapsid : ss2.map SocketM.sid = g.sockets.map SocketM.sid := by
    rw [hss2, sockAddConn_map_sid, sockAddConn_map_sid]
  refine ⟨?_, ?_, ?_⟩
  · show (ss2.map SocketM.sid).Nodup
    rw [hmapsid]; exact hsid
  · -- every connection, old or new, has a valid witness in the new store
    have htrans : ∀ u ∈ g.sockets, ∃ u2 ∈ ss2, u2.sid = u.sid ∧
        u2.owner = u.owner ∧ u2.dir = u.dir ∧ u2.stype = u.stype := by
      intro u hu
      rcases sockAddConn_mem_fwd g.sockets so.sid g.freshC u hu with
        ⟨u1, hu1, e1, e2, e3, e4⟩
      rcases sockAddConn_mem_fwd _ si.sid g.freshC u1 hu1 with
        ⟨u2, hu2, f1, f2, f3, f4⟩
      exact ⟨u2, hu2, f1.trans e1, f2.trans e2, f3.trans e3, f4.trans e4⟩
    intro c hc
    rcases List.mem_append.mp hc with hOld | hNew
    · rcases hconn c hOld with ⟨uo, huo, ui, hui, e1, e2, e3, e4, e5, e6⟩
      rcases htrans uo huo with ⟨vo, hvo, m1, m2, m3, m4⟩
      rcases htrans ui hui with ⟨vi, hvi, n1, n2, n3, n4⟩
      exact ⟨vo, hvo, vi, hvi, m1.trans e1, n1.trans e2, m3.trans e3,
        n3.trans e4, fun hEq => e5 (by rw [← m2, ← n2, hEq]), by rw [m4, n4]; exact e6⟩
    · rcases List.mem_singleton.mp hNew with rfl
      rcases htrans so hsoMem with ⟨vo, hvo, m1, m2, m3, m4⟩
      rcases htrans si hsiMem with ⟨vi, hvi, n1, n2, n3, n4⟩
      exact ⟨vo, hvo, vi, hvi, m1, n1, by rw [m3, hsoP.2.1], by rw [n3, hsiP.2.1],
        fun hEq => hown (by rw [← m2, ← n2, hEq]), by rw [m4, n4]; exact hcompat⟩
  · -- capacity of non-multi sockets
    intro sk hsk hm
    rcases sockAddConn_mem_rev _ si.sid g.freshC sk hsk with
      ⟨s1, hs1, e1, _, _, _, e5, e6⟩
    rcases sockAddConn_mem_rev _ so.sid g.freshC s1 hs1 with
      ⟨s0, hs0, f1, _, _, _, f5, f6⟩
    have hm0 : s0.isMulti = false := by rw [← f5, ← e5]; exact hm
    rcases f6 with hkeep | ⟨happ, htarget⟩
    · -- first registration did not touch s1
      rcases e6 with hkeep2 | ⟨happ2, htarget2⟩
      · rw [hkeep2, hkeep]; exact hcap s0 hs0 hm0
      · -- s1 is the input socket: s0 = si, which was empty
        have : s0 = si := List.inj_on_of_nodup_map hsid hs0 hsiMem
          (f1 ▸ htarget2)
        subst this
        rw [happ2, hkeep, hsiCap.resolve_left (by rw [hm0]; simp) ]
        simp
    · -- s1 got the new id from the first registration: s0 = so, empty before
      have : s0 = so := List.inj_on_of_nodup_map hsid hs0 hsoMem htarget
      subst this
      have hsoEmpty : s0.conns = [] := hsoCap.resolve_left (by rw [hm0]; simp)
      rcases e6 with hkeep2 | ⟨happ2, htarget2⟩
      · rw [hkeep2, happ, hsoEmpty]; simp
      · -- both targets hit the same socket: impossible, sids differ
        exact absurd (f1 ▸ htarget2) hsidNe

/-- Claim C3 refuted: through the public contract alone — two `add_node`
calls and two successful `connect_nodes` calls — the graph acquires a
directed cycle between nodes 1 and 2.  No mutation rejects it:
`connect_nodes` never consults the cycle pre-check
(`Node.can_connect_to` is never called). -/
theorem C3_counterexample :
    ∃ g1 c1, connectNodes twoNodesG 1 "out" 2 "in" = Except.ok (g1, c1) ∧
      ∃ g2 c2, connectNodes g1 2 "out" 1 "in" = Except.ok (g2, c2) ∧
        Relation.TransGen (edgeRelNG g2) 1 1 := by
  refine ⟨twoWiredG, 0, rfl, cycleNG, 1, rfl, ?_⟩
  have h12 : (1, 2) ∈ connEdges cycleNG := by decide
  have h21 : (2, 1) ∈ connEdges cycleNG := by decide
  exact @Relation.TransGen.head ℕ (edgeRelNG cycleNG) 1 2 1 h12
    (@Relation.TransGen.single ℕ (edgeRelNG cycleNG) 2 1 h21)

/-- Claim C3 as amended: every graph reachable through `add_node` /
`connect_nodes` satisfies the structural invariants enforced at the
mutation point — each connection joins an output socket to an input socket
of two different nodes with producer → consumer type compatibility, socket
identities stay distinct, and no non-multi socket holds more than one
connection.  Acyclicity is NOT among the enforced invariants: cycles are
constructible (see the counterexample) and are detected only later, by
`get_execution_order`. -/
theorem C3_amended (g : NG) (h : ReachableNG g) : StructInv g := by
  induction h with
  | base => exact ⟨by simp [emptyNG], by simp [emptyNG], by simp [emptyNG]⟩
  | addN hre hf ih => exact structInv_addNode _ _ _ hf ih
  | connectN hre heq ih => exact structInv_connect heq ih

/-- Witness for `C3_amended` on the concretely constructed cyclic graph. -/
theorem C3_amended_witness : StructInv cycleNG :=
  C3_amended cycleNG
    (@ReachableNG.connectN twoWiredG cycleNG 2 1 "out" "in" 1
      (@ReachableNG.connectN twoNodesG twoWiredG 1 2 "out" "in" 0
        (@ReachableNG.addN (addNode emptyNG 1 [mkIn 1 1 .number, mkOut 2 1 .number])
          2 [mkIn 3 2 .number, mkOut 4 2 .number]
          (@ReachableNG.addN emptyNG 1 [mkIn 1 1 .number, mkOut 2 1 .number]
            ReachableNG.base ⟨by decide, by decide, by decide, by decide⟩)
          ⟨by decide, by decide, by decide, by decide⟩)
        rfl)
      rfl)

/-! ## Claim C8 — remove_node cascade -/

/-- Reverse transport through one `Connection.disconnect`: every socket of
the result arises from a socket of the input with the same identity,
owner and direction, and with a connection list that is a sublist of the
original. -/
theorem disconnectConn_mem (ss : List SocketM) (c : ConnM) (s2 : SocketM)
    (hs2 : s2 ∈ disconnectConn ss c) :
    ∃ s ∈ ss, s2.sid = s.sid ∧ s2.owner = s.owner ∧ s2.dir = s.dir ∧
      List.Sublist s2.conns s.conns := by
  unfold disconnectConn sockRemoveConn at hs2
  rcases List.mem_map.mp hs2 with ⟨s1, hs1, hmap1⟩
  rcases List.mem_map.mp hs1 with ⟨s, hs, hmap0⟩
  subst hmap1
  subst hmap0
  exact ⟨s, hs,
    (sockRemovePoint_sid _ _ _).trans (sockRemovePoint_sid _ _ _),
    (sockRemovePoint_owner _ _ _).trans (sockRemovePoint_owner _ _ _),
    (sockRemovePoint_dir _ _ _).trans (sockRemovePoint_dir _ _ _),
    (sockRemovePoint_sublist _ _ _).trans (sockRemovePoint_sublist _ _ _)⟩

/-- `Connection.disconnect` preserves duplicate-freeness of every
connection list. -/
theorem disconnectConn_nodup (ss : List SocketM) (c : ConnM)
    (hnd : ∀ s ∈ ss, s.conns.Nodup) :
    ∀ s2 ∈ disconnectConn ss c, s2.conns.Nodup := by
  intro s2 h
  rcases disconnectConn_mem ss c s2 h with ⟨s, hs, _, _, _, hsub⟩
  exact List.Nodup.sublist hsub (hnd s hs)

/-- After one `Connection.disconnect`, neither endpoint socket lists the
connection any more. -/
theorem disconnectConn_removes (ss : List SocketM) (c : ConnM)
    (hnd : ∀ s ∈ ss, s.conns.Nodup) :
    ∀ s2 ∈ disconnectConn ss c, (s2.sid = c.outSock ∨ s2.sid = c.inSock) →
      c.cid ∉ s2.conns := by
  intro s2 hs2 hend
  unfold disconnectConn sockRemoveConn at hs2
  rcases List.mem_map.mp hs2 with ⟨s1, hs1, hmap1⟩
  rcases List.mem_map.mp hs1 with ⟨s, hs, hmap0⟩
  subst hmap1
  subst hmap0
  have hcnt : s.conns.count c.cid ≤ 1 :=
    List.nodup_iff_count_le_one.mp (hnd s hs) c.cid
  have esid : (sockRemovePoint c.inSock c.cid
      (sockRemovePoint c.outSock c.cid s)).sid = s.sid :=
    (sockRemovePoint_sid _ _ _).trans (sockRemovePoint_sid _ _ _)
  rcases hend with hEq | hEq
  · have hsidS : s.sid = c.outSock := esid ▸ hEq
    exact sockRemovePoint_not_mem _ _ _ _
      (sockRemovePoint_removes _ _ _ hcnt hsidS)
  · have hsidS : s.sid = c.inSock := esid ▸ hEq
    apply sockRemovePoint_removes
    · exact le_trans ((sockRemovePoint_sublist _ _ _).count_le _) hcnt
    · rw [sockRemovePoint_sid]; exact hsidS

/-- Reverse transport through a whole disconnect cascade. -/
theorem removalFold_mem (g : NG) :
    ∀ (cids : List ℕ) (ss : List SocketM) (s2 : SocketM),
      s2 ∈ removalFold g cids ss →
      ∃ s ∈ ss, s2.sid = s.sid ∧ s2.owner = s.owner ∧ s2.dir = s.dir ∧
        List.Sublist s2.conns s.conns := by
  intro cids
  induction cids with
  | nil =>
      intro ss s2 hs2
      exact ⟨s2, hs2, rfl, rfl, rfl, List.Sublist.refl _⟩
  | cons cid0 rest ih =>
      intro ss s2 hs2
      unfold removalFold at hs2
      cases hfc : findConn g cid0 with
      | some c0 =>
          rw [hfc] at hs2
          rcases ih (disconnectConn ss c0) s2 hs2 with ⟨s1, hs1, e1, e2, e3, e4⟩
          rcases disconnectConn_mem ss c0 s1 hs1 with ⟨s0, hs0, f1, f2, f3, f4⟩
          exact ⟨s0, hs0, e1.trans f1, e2.trans f2, e3.trans f3, e4.trans f4⟩
      | none =>
          rw [hfc] at hs2
          exact ih ss s2 hs2

/-- If a disconnected id is among the cascade's list and resolves in the
connection map, then after the cascade no endpoint socket lists it. -/
theorem removalFold_removes (g : NG) :
    ∀ (cids : List ℕ) (ss : List SocketM) (cidStar : ℕ) (c : ConnM),
      findConn g cidStar = some c → cidStar ∈ cids →
      (∀ s ∈ ss, s.conns.Nodup) →
      ∀ s2 ∈ removalFold g cids ss,
        (s2.sid = c.outSock ∨ s2.sid = c.inSock) → cidStar ∉ s2.conns := by
  intro cids
  induction cids with
  | nil => intro ss cidStar c _ hin; cases hin
  | cons cid0 rest ih =>
      intro ss cidStar c hfind hin hnd s2 hs2 hend
      unfold removalFold at hs2
      cases hfc : findConn g cid0 with
      | some c0 =>
          rw [hfc] at hs2
          by_cases hc0 : cid0 = cidStar
          · subst hc0
            have hceq : c0 = c := by
              rw [hfind] at hfc
              exact (Option.some.injEq _ _ ▸ hfc).symm
            subst hceq
            have hcid0 : c0.cid = cid0 := by
              have := List.find?_some hfc
              simpa using this
            rcases removalFold_mem g rest _ s2 hs2 with ⟨s1, hs1, e1, _, _, e4⟩
            intro hmem
            have hendS1 : s1.sid = c0.outSock ∨ s1.sid = c0.inSock := by
              rcases hend with hEq | hEq
              · exact Or.inl (e1 ▸ hEq)
              · exact Or.inr (e1 ▸ hEq)
            have := disconnectConn_removes ss c0 hnd s1 hs1 hendS1
            rw [hcid0] at this
            exact this (e4.subset hmem)
          · rcases List.mem_cons.mp hin with hEq | hR
            · exact absurd hEq.symm hc0
            · exact ih (disconnectConn ss c0) cidStar c hfind hR
                (disconnectConn_nodup ss c0 hnd) s2 hs2 hend
      | none =>
          rw [hfc] at hs2
          rcases List.mem_cons.mp hin with hEq | hR
          · subst hEq
            rw [hfind] at hfc
            cases hfc
          · exact ih ss cidStar c hfind hR hnd s2 hs2 hend

/-- A registered connection with distinct connection ids resolves to
itself in the map. -/
theorem findConn_eq (g : NG) (c : ConnM) (hc : c ∈ g.connections)
    (hnd : (g.connections.map ConnM.cid).Nodup) :
    findConn g c.cid = some c := by
  unfold findConn
  have key : ∀ (l : List ConnM), c ∈ l → (l.map ConnM.cid).Nodup →
      l.find? (fun k => k.cid = c.cid) = some c := by
    intro l
    induction l with
    | nil => intro hc2 _; cases hc2
    | cons d rest ih =>
        intro hc2 hnd2
        rw [List.map_cons, List.nodup_cons] at hnd2
        rcases List.mem_cons.mp hc2 with hEq | hR
        · subst hEq
          simp [List.find?_cons]
        · have hne : d.cid ≠ c.cid := fun hEq =>
            hnd2.1 (hEq ▸ List.mem_map_of_mem ConnM.cid hR)
          simp only [List.find?_cons, hne, decide_False]
          exact ih hR hnd2.2
  exact key g.connections hc hnd

/-- Claim C8 refuted: after `remove_node(1)` on the wired two-node graph,
the graph's connection map still holds the connection ⟨0, 2, 3⟩, whose
output endpoint (socket 2) is owned by the removed node 1 — a connection
referencing the removed node remains in the connection map. -/
theorem C8_counterexample :
    1 ∉ (removeNode twoWiredG 1).nodes ∧
    (removeNode twoWiredG 1).connections = [⟨0, 2, 3⟩] ∧
    ∃ t ∈ (removeNode twoWiredG 1).sockets, t.owner = 1 ∧ t.sid = 2 :=
  ⟨by decide, by decide, by decide⟩

/-- Claim C8 as amended: `remove_node(id)` deletes the node from the node
map and deregisters every connection touching the node from the
connection lists of ALL sockets (the node's own and its peers'), but the
`Connection` entries remain — stale — in the graph's connection map,
which `remove_node` never touches. -/
theorem C8_amended (g : NG) (nid : ℕ) (hreg : GraphReg g)
    (hmem : nid ∈ g.nodes) :
    nid ∉ (removeNode g nid).nodes ∧
    (removeNode g nid).connections = g.connections ∧
    ∀ s2 ∈ (removeNode g nid).sockets, ∀ c ∈ g.connections,
      TouchesNode g c nid → c.cid ∉ s2.conns := by
  obtain ⟨hnodesND, hsidND, hcidND, hconnsND, hreg5, hreg6⟩ := hreg
  unfold removeNode
  rw [if_pos hmem]
  unfold disconnectAllNode
  refine ⟨hnodesND.not_mem_erase, rfl, ?_⟩
  intro s2 hs2 c hc htouch
  rcases htouch with ⟨t, ht, htOwn, htEnd⟩
  have hcidIn : c.cid ∈ t.conns := hreg5 c hc t ht htEnd
  have hinIds : c.cid ∈ nodeConnIds g nid := by
    unfold nodeConnIds
    cases hdir : t.dir with
    | input =>
        apply List.mem_append_left
        exact List.mem_flatMap.mpr
          ⟨t, List.mem_filter.mpr ⟨ht, by simp [htOwn, hdir]⟩, hcidIn⟩
    | output =>
        apply List.mem_append_right
        exact List.mem_flatMap.mpr
          ⟨t, List.mem_filter.mpr ⟨ht, by simp [htOwn, hdir]⟩, hcidIn⟩
  have hfind : findConn g c.cid = some c := findConn_eq g c hc hcidND
  by_cases hend : s2.sid = c.outSock ∨ s2.sid = c.inSock
  · exact removalFold_removes g (nodeConnIds g nid) g.sockets c.cid c hfind
      hinIds hconnsND s2 hs2 hend
  · intro hmemCid
    rcases removalFold_mem g (nodeConnIds g nid) g.sockets s2 hs2 with
      ⟨s0, hs0, e1, _, _, e4⟩
    rcases hreg6 s0 hs0 c.cid (e4.subset hmemCid) with ⟨c2, hc2, hc2cid, hc2end⟩
    have hceq : c2 = c := List.inj_on_of_nodup_map hcidND hc2 hc hc2cid
    subst hceq
    rcases hc2end with hEq | hEq
    · exact hend (Or.inl (e1.trans hEq.symm ▸ rfl))
    · exact hend (Or.inr (e1.trans hEq.symm ▸ rfl))

/-- Witness for `C8_amended` on the concrete wired two-node graph. -/
theorem C8_amended_witness :
    1 ∉ (removeNode twoWiredG 1).nodes ∧
    (removeNode twoWiredG 1).connections = twoWiredG.connections ∧
    ∀ s2 ∈ (removeNode twoWiredG 1).sockets, ∀ c ∈ twoWiredG.connections,
      TouchesNode twoWiredG c 1 → c.cid ∉ s2.conns :=
  C8_amended twoWiredG 1
    ⟨by decide, by decide, by decide, by decide, by decide, by decide⟩
    (by decide)

/-! ## Claims C2 and C6 — execution order -/

/-- The decrement pass leaves each consumer's degree reduced by the number
of processed connections into it. -/
theorem processOuts_fst (outs : List (ℕ × ℕ)) :
    ∀ (deg : ℕ → ℤ) (m : ℕ),
      (processOuts deg outs).1 m =
        deg m - ((outs.filter (fun e => decide (e.2 = m))).length : ℤ) := by
  induction outs with
  | nil => intro deg m; simp [processOuts]
  | cons e es ih =>
      intro deg m
      have hstep : (processOuts deg (e :: es)).1 =
          (processOuts (fun x => if x = e.2 then deg e.2 - 1 else deg x) es).1 := rfl
      rw [hstep, ih]
      by_cases hm : m = e.2
      · subst hm
        rw [List.filter_cons_of_pos (by simp), List.length_cons, if_pos rfl]
        push_cast
        ring
      · rw [List.filter_cons_of_neg
          (by simp only [decide_eq_true_eq]; exact fun h => hm h.symm), if_neg hm]

/-- A consumer enters the freshly-enqueued list exactly when its degree
passes through zero during the pass: it started at least 1 and the pass
decrements it at least down to 0. -/
theorem processOuts_mem (outs : List (ℕ × ℕ)) :
    ∀ (deg : ℕ → ℤ) (m : ℕ),
      m ∈ (processOuts deg outs).2 ↔
        (1 ≤ deg m ∧
          deg m ≤ ((outs.filter (fun e => decide (e.2 = m))).length : ℤ)) := by
  induction outs with
  | nil =>
      intro deg m
      simp only [processOuts, List.not_mem_nil, false_iff, List.filter_nil,
        List.length_nil, Nat.cast_zero, not_and]
      intro h1
      omega
  | cons e es ih =>
      intro deg m
      have hstep : (processOuts deg (e :: es)).2 =
          if deg e.2 - 1 = 0 then
            e.2 :: (processOuts (fun x => if x = e.2 then deg e.2 - 1 else deg x) es).2
          else (processOuts (fun x => if x = e.2 then deg e.2 - 1 else deg x) es).2 := rfl
      rw [hstep]
      by_cases hm : m = e.2
      · subst hm
        rw [List.filter_cons_of_pos (by simp), List.length_cons]
        by_cases hd : deg e.2 - 1 = 0
        · rw [if_pos hd]
          constructor
          · intro _
            push_cast
            omega
          · intro _
            exact List.mem_cons_self _ _
        · rw [if_neg hd, ih, if_pos rfl]
          push_cast
          constructor
          · intro h; exact ⟨by omega, by omega⟩
          · intro h; exact ⟨by omega, by omega⟩
      · rw [List.filter_cons_of_neg
          (by simp only [decide_eq_true_eq]; exact fun h => hm h.symm)]
        have hsplit : m ∈ (if deg e.2 - 1 = 0 then
            e.2 :: (processOuts (fun x => if x = e.2 then deg e.2 - 1 else deg x) es).2
          else (processOuts (fun x => if x = e.2 then deg e.2 - 1 else deg x) es).2) ↔
            m ∈ (processOuts (fun x => if x = e.2 then deg e.2 - 1 else deg x) es).2 := by
          split
          · constructor
            · intro h
              rcases List.mem_cons.mp h with hEq | hR
              · exact absurd hEq hm
              · exact hR
            · intro h
              exact List.mem_cons_of_mem _ h
          · exact Iff.rfl
        rw [hsplit, ih, if_neg hm]

/-- The freshly-enqueued list never repeats a node. -/
theorem processOuts_nodup (outs : List (ℕ × ℕ)) :
    ∀ (deg : ℕ → ℤ), (processOuts deg outs).2.Nodup := by
  induction outs with
  | nil => intro deg; simp [processOuts]
  | cons e es ih =>
      intro deg
      have hstep : (processOuts deg (e :: es)).2 =
          if deg e.2 - 1 = 0 then
            e.2 :: (processOuts (fun x => if x = e.2 then deg e.2 - 1 else deg x) es).2
          else (processOuts (fun x => if x = e.2 then deg e.2 - 1 else deg x) es).2 := rfl
      rw [hstep]
      split
      · rename_i hd
        rw [List.nodup_cons]
        refine ⟨?_, ih _⟩
        rw [processOuts_mem]
        intro hmem
        have h1 := hmem.1
        rw [if_pos rfl] at h1
        omega
      · exact ih _

/-- Emitting a fresh producer splits each pending count into the new
pending count plus the processed connections from that producer. -/
theorem cnt_append (g : ExecGraph) (res : List ℕ) (x : ℕ) (hx : x ∉ res)
    (n : ℕ) :
    cnt g res n = cnt g (res ++ [x]) n +
      (g.edges.filter (fun e => decide (e.1 = x ∧ e.2 = n))).length := by
  unfold cnt
  induction g.edges with
  | nil => simp
  | cons e es ih =>
      by_cases h2 : e.2 = n
      · by_cases h1r : e.1 ∈ res
        · rw [List.filter_cons_of_neg
              (by simp only [decide_eq_true_eq]; exact fun hcon => hcon.2 h1r),
            List.filter_cons_of_neg
              (by simp only [decide_eq_true_eq]
                  exact fun hcon => hcon.2 (List.mem_append_left _ h1r)),
            List.filter_cons_of_neg
              (by simp only [decide_eq_true_eq]
                  exact fun hcon => hx (hcon.1 ▸ h1r))]
          exact ih
        · by_cases h1x : e.1 = x
          · rw [List.filter_cons_of_pos
                (by simp only [decide_eq_true_eq]; exact ⟨h2, h1r⟩),
              List.filter_cons_of_neg
                (by simp only [decide_eq_true_eq]
                    exact fun hcon => hcon.2
                      (List.mem_append_right _ (List.mem_singleton.mpr h1x))),
              List.filter_cons_of_pos
                (by simp only [decide_eq_true_eq]; exact ⟨h1x, h2⟩),
              List.length_cons, List.length_cons]
            omega
          · rw [List.filter_cons_of_pos
                (by simp only [decide_eq_true_eq]; exact ⟨h2, h1r⟩),
              List.filter_cons_of_pos
                (by simp only [decide_eq_true_eq]
                    refine ⟨h2, fun hmem => ?_⟩
                    rcases List.mem_append.mp hmem with hA | hB
                    · exact h1r hA
                    · exact h1x (List.mem_singleton.mp hB)),
              List.filter_cons_of_neg
                (by simp only [decide_eq_true_eq]; exact fun hcon => h1x hcon.1),
              List.length_cons, List.length_cons]
            omega
      · rw [List.filter_cons_of_neg
            (by simp only [decide_eq_true_eq]; exact fun hcon => h2 hcon.1),
          List.filter_cons_of_neg
            (by simp only [decide_eq_true_eq]; exact fun hcon => h2 hcon.1),
          List.filter_cons_of_neg
            (by simp only [decide_eq_true_eq]; exact fun hcon => h2 hcon.2)]
        exact ih

/-- With nothing emitted, the pending count is the full in-degree. -/
theorem cnt_nil (g : ExecGraph) (n : ℕ) :
    (cnt g [] n : ℤ) = inDeg0 g n := by
  unfold cnt inDeg0
  congr 2
  apply List.filter_congr
  intro e _
  simp

/-- A zero pending count means every connection into the node comes from
an emitted producer. -/
theorem cnt_eq_zero_iff (g : ExecGraph) (res : List ℕ) (n : ℕ) :
    cnt g res n = 0 ↔ ∀ e ∈ g.edges, e.2 = n → e.1 ∈ res := by
  unfold cnt
  rw [List.length_eq_zero, List.filter_eq_nil_iff]
  constructor
  · intro h e he hEq
    by_contra hmem
    exact h e he (by simp [hEq, hmem])
  · intro h e he
    simp only [decide_eq_true_eq, not_and, not_not]
    intro hEq
    exact h e he hEq

/-- A positive pending count exhibits a connection from an unemitted
producer. -/
theorem cnt_pos (g : ExecGraph) (res : List ℕ) (n : ℕ) (h : 0 < cnt g res n) :
    ∃ e ∈ g.edges, e.2 = n ∧ e.1 ∉ res := by
  unfold cnt at h
  rw [List.length_pos] at h
  rcases List.exists_mem_of_ne_nil _ h with ⟨e, he⟩
  have hmf := List.mem_filter.mp he
  refine ⟨e, hmf.1, ?_⟩
  have hp := hmf.2
  simp only [decide_eq_true_eq] at hp
  exact hp

/-- The per-producer slice of the processed-connection count. -/
theorem outs_filter_eq (g : ExecGraph) (x m : ℕ) :
    ((g.edges.filter (fun e => decide (e.1 = x))).filter
        (fun e => decide (e.2 = m))).length =
      (g.edges.filter (fun e => decide (e.1 = x ∧ e.2 = m))).length := by
  rw [List.filter_filter]
  congr 1
  apply List.filter_congr
  intro e _
  simp [Bool.and_comm]

/-- The main loop, started in an invariant state with enough fuel to emit
every node, ends in a state satisfying the output guarantees. -/
theorem kahnLoop_main (g : ExecGraph) (hwf : g.WF) :
    ∀ (fuel : ℕ) (deg : ℕ → ℤ) (queue result : List ℕ),
      KInv g deg queue result →
      g.nodes.length ≤ fuel + result.length →
      KOut g (kahnLoop g fuel deg queue result) := by
  intro fuel
  induction fuel with
  | zero =>
      intro deg queue result hinv hfuel
      have hret : kahnLoop g 0 deg queue result = result := by
        cases queue <;> rfl
      rw [hret]
      refine ⟨hinv.resNodup, hinv.resMem, hinv.ordering, ?_⟩
      intro n hn hnres
      exfalso
      apply hnres
      have hsub : List.Subperm result g.nodes :=
        List.Nodup.subperm hinv.resNodup (fun a ha => hinv.resMem a ha)
      have hperm : result.Perm g.nodes := hsub.perm_of_length_le (by omega)
      exact hperm.mem_iff.mpr hn
  | succ f ih =>
      intro deg queue result hinv hfuel
      cases queue with
      | nil =>
          have hret : kahnLoop g (f + 1) deg [] result = result := rfl
          rw [hret]
          refine ⟨hinv.resNodup, hinv.resMem, hinv.ordering, ?_⟩
          intro n hn hnres
          exact hinv.pending n hn hnres (List.not_mem_nil n)
      | cons x qs =>
          have hretstep : kahnLoop g (f + 1) deg (x :: qs) result =
              kahnLoop g f
                (processOuts deg (g.edges.filter (fun e => decide (e.1 = x)))).1
                (qs ++ (processOuts deg (g.edges.filter (fun e => decide (e.1 = x)))).2)
                (result ++ [x]) := rfl
          rw [hretstep]
          set outs := g.edges.filter (fun e => decide (e.1 = x)) with houts
          set pr := processOuts deg outs with hpr
          have hxq : x ∈ x :: qs := List.mem_cons_self x qs
          have hxnodes : x ∈ g.nodes := hinv.qMem x hxq
          have hxres : x ∉ result := hinv.disjQR x hxq
          have hxqs : x ∉ qs := (List.nodup_cons.mp hinv.qNodup).1
          have hqsnd : qs.Nodup := (List.nodup_cons.mp hinv.qNodup).2
          have hxready : cnt g result x = 0 := hinv.qReady x hxq
          have hcntApp : ∀ m, cnt g result m = cnt g (result ++ [x]) m +
              (g.edges.filter (fun e => decide (e.1 = x ∧ e.2 = m))).length :=
            fun m => cnt_append g result x hxres m
          have houtcnt : ∀ m, (outs.filter (fun e => decide (e.2 = m))).length =
              (g.edges.filter (fun e => decide (e.1 = x ∧ e.2 = m))).length := by
            intro m
            rw [houts]
            exact outs_filter_eq g x m
          have hdeg2 : ∀ m, pr.1 m = (cnt g (result ++ [x]) m : ℤ) := by
            intro m
            rw [hpr, processOuts_fst, hinv.degEq m, houtcnt m]
            have := hcntApp m
            omega
          have hmemQ2 : ∀ m, m ∈ pr.2 ↔
              (1 ≤ cnt g result m ∧ cnt g result m ≤
                (g.edges.filter (fun e => decide (e.1 = x ∧ e.2 = m))).length) := by
            intro m
            rw [hpr, processOuts_mem, hinv.degEq m, houtcnt m]
            constructor
            · intro h; exact ⟨by omega, by omega⟩
            · intro h; exact ⟨by omega, by omega⟩
          have hresReady : ∀ n ∈ result, cnt g result n = 0 := by
            intro n hn
            rw [cnt_eq_zero_iff]
            intro e he hEq
            exact (hinv.ordering e he (hEq ▸ hn)).1
          have hresNodup2 : (result ++ [x]).Nodup := by
            rw [List.nodup_append]
            exact ⟨hinv.resNodup, List.nodup_singleton x,
              fun a ha hax => hxres ((List.mem_singleton.mp hax) ▸ ha)⟩
          have hresMem2 : ∀ n ∈ result ++ [x], n ∈ g.nodes := by
            intro n hn
            rcases List.mem_append.mp hn with hA | hB
            · exact hinv.resMem n hA
            · exact (List.mem_singleton.mp hB) ▸ hxnodes
          have hidx_x : (result ++ [x]).indexOf x = result.length := by
            rw [List.indexOf_append_of_not_mem hxres]
            simp
          have hord2 : ∀ e ∈ g.edges, e.2 ∈ result ++ [x] →
              e.1 ∈ result ++ [x] ∧
                (result ++ [x]).indexOf e.1 < (result ++ [x]).indexOf e.2 := by
            intro e he hmem
            rcases List.mem_append.mp hmem with hA | hB
            · rcases hinv.ordering e he hA with ⟨h1mem, h1lt⟩
              refine ⟨List.mem_append_left _ h1mem, ?_⟩
              rw [List.indexOf_append_of_mem h1mem, List.indexOf_append_of_mem hA]
              exact h1lt
            · have hEq : e.2 = x := List.mem_singleton.mp hB
              have hprod : e.1 ∈ result := by
                have h0 := hxready
                rw [cnt_eq_zero_iff] at h0
                exact h0 e he hEq
              refine ⟨List.mem_append_left _ hprod, ?_⟩
              rw [List.indexOf_append_of_mem hprod, hEq, hidx_x]
              exact List.indexOf_lt_length.mpr hprod
          have hnewq_nodup : pr.2.Nodup := by
            rw [hpr]
            exact processOuts_nodup outs deg
          have hq2Nodup : (qs ++ pr.2).Nodup := by
            rw [List.nodup_append]
            refine ⟨hqsnd, hnewq_nodup, ?_⟩
            intro a ha hap
            have h1 := ((hmemQ2 a).mp hap).1
            have h2 := hinv.qReady a (List.mem_cons_of_mem _ ha)
            omega
          have hq2Mem : ∀ n ∈ qs ++ pr.2, n ∈ g.nodes := by
            intro n hn
            rcases List.mem_append.mp hn with hA | hB
            · exact hinv.qMem n (List.mem_cons_of_mem _ hA)
            · have h1 := ((hmemQ2 n).mp hB).1
              rcases cnt_pos g result n (by omega) with ⟨e, he, hEq, _⟩
              exact hEq ▸ (hwf.2 e he).2
          have hdisj2 : ∀ n ∈ qs ++ pr.2, n ∉ result ++ [x] := by
            intro n hn hmem
            rcases List.mem_append.mp hmem with hA | hB
            · rcases List.mem_append.mp hn with hqA | hqB
              · exact hinv.disjQR n (List.mem_cons_of_mem _ hqA) hA
              · have h1 := ((hmemQ2 n).mp hqB).1
                have h2 := hresReady n hA
                omega
            · have hnx : n = x := List.mem_singleton.mp hB
              rcases List.mem_append.mp hn with hqA | hqB
              · exact hxqs (hnx ▸ hqA)
              · have h1 := ((hmemQ2 n).mp hqB).1
                rw [hnx] at h1
                omega
          have hqReady2 : ∀ n ∈ qs ++ pr.2, cnt g (result ++ [x]) n = 0 := by
            intro n hn
            rcases List.mem_append.mp hn with hA | hB
            · have h0 := hinv.qReady n (List.mem_cons_of_mem _ hA)
              have := hcntApp n
              omega
            · have h1 := (hmemQ2 n).mp hB
              have := hcntApp n
              omega
          have hpending2 : ∀ n ∈ g.nodes, n ∉ result ++ [x] → n ∉ qs ++ pr.2 →
              0 < cnt g (result ++ [x]) n := by
            intro n hn hnres hnq
            have hnx : n ≠ x := fun hEq =>
              hnres (List.mem_append_right _ (hEq ▸ List.mem_singleton_self x))
            have hnres0 : n ∉ result := fun h => hnres (List.mem_append_left _ h)
            have hnqs : n ∉ qs := fun h => hnq (List.mem_append_left _ h)
            have hnq2 : n ∉ pr.2 := fun h => hnq (List.mem_append_right _ h)
            have hnqueue : n ∉ x :: qs := by
              intro h
              rcases List.mem_cons.mp h with hEq | hR
              · exact hnx hEq
              · exact hnqs hR
            have hp := hinv.pending n hn hnres0 hnqueue
            rw [hmemQ2 n] at hnq2
            have := hcntApp n
            omega
          exact ih pr.1 (qs ++ pr.2) (result ++ [x])
            ⟨hresNodup2, hq2Nodup, hdisj2, hresMem2, hq2Mem, hdeg2,
              hpending2, hqReady2, hord2⟩
            (by simp only [List.length_append, List.length_singleton]; omega)

/-- The complete run satisfies the output guarantees: the seeding pass
establishes the loop invariant. -/
theorem kahnRun_out (g : ExecGraph) (hwf : g.WF) : KOut g (kahnRun g) := by
  unfold kahnRun
  apply kahnLoop_main g hwf
  · refine ⟨List.nodup_nil, hwf.1.filter _, ?_, ?_, ?_, ?_, ?_, ?_, ?_⟩
    · intro n _ h
      exact absurd h (List.not_mem_nil n)
    · intro n h
      exact absurd h (List.not_mem_nil n)
    · intro n hn
      exact (List.mem_filter.mp hn).1
    · intro n
      exact (cnt_nil g n).symm
    · intro n hn hres hq
      have hne : ¬ inDeg0 g n = 0 := by
        intro h0
        exact hq (List.mem_filter.mpr ⟨hn, by simp [h0]⟩)
      have := cnt_nil g n
      rcases Nat.eq_zero_or_pos (cnt g [] n) with h | h
      · exfalso
        apply hne
        rw [← this, h]
        simp
      · exact h
    · intro n hn
      have hp := (List.mem_filter.mp hn).2
      simp only [decide_eq_true_eq] at hp
      have := cnt_nil g n
      rw [hp] at this
      exact_mod_cast this
    · intro e _ h
      exact absurd h (List.not_mem_nil e.2)
  · simp

/-- Filtering with a pointwise-weaker predicate keeps at most as many
elements. -/
theorem filter_length_le_mono {α : Type} (R : List α) (p q : α → Bool)
    (himp : ∀ m ∈ R, p m = true → q m = true) :
    (R.filter p).length ≤ (R.filter q).length := by
  induction R with
  | nil => simp
  | cons a rest ih =>
      have ih2 := ih (fun m hm => himp m (List.mem_cons_of_mem _ hm))
      by_cases hpa : p a = true
      · rw [List.filter_cons_of_pos hpa,
          List.filter_cons_of_pos (himp a (List.mem_cons_self _ _) hpa),
          List.length_cons, List.length_cons]
        omega
      · rw [List.filter_cons_of_neg hpa]
        by_cases hqa : q a = true
        · rw [List.filter_cons_of_pos hqa, List.length_cons]
          omega
        · rw [List.filter_cons_of_neg hqa]
          exact ih2

/-- Filtering with a strictly-weaker predicate (witnessed by one member)
keeps strictly fewer elements. -/
theorem filter_length_strict {α : Type} (R : List α) (p q : α → Bool)
    (himp : ∀ m ∈ R, p m = true → q m = true) (w : α) (hw : w ∈ R)
    (hqw : q w = true) (hpw : p w = false) :
    (R.filter p).length < (R.filter q).length := by
  induction R with
  | nil => cases hw
  | cons a rest ih =>
      have himp2 : ∀ m ∈ rest, p m = true → q m = true :=
        fun m hm => himp m (List.mem_cons_of_mem _ hm)
      rcases List.mem_cons.mp hw with hEq | hR
      · have hna : ¬ p a = true := by rw [← hEq]; simp [hpw]
        have hqa : q a = true := by rw [← hEq]; exact hqw
        rw [List.filter_cons_of_neg hna, List.filter_cons_of_pos hqa,
          List.length_cons]
        have := filter_length_le_mono rest p q himp2
        omega
      · by_cases hpa : p a = true
        · rw [List.filter_cons_of_pos hpa,
            List.filter_cons_of_pos (himp a (List.mem_cons_self _ _) hpa),
            List.length_cons, List.length_cons]
          have := ih himp2 hR
          omega
        · rw [List.filter_cons_of_neg hpa]
          by_cases hqa : q a = true
          · rw [List.filter_cons_of_pos hqa, List.length_cons]
            have := ih himp2 hR
            omega
          · rw [List.filter_cons_of_neg hqa]
            exact ih himp2 hR

/-- In an acyclic edge list, a nonempty set in which every member has an
in-neighbour inside the set cannot exist: following in-neighbours shrinks
the set of ancestors at every step. -/
theorem no_source_false (edges : List (ℕ × ℕ)) (R : List ℕ)
    (hacyc : ∀ n, ¬ Relation.TransGen (fun a b : ℕ => (a, b) ∈ edges) n n)
    (hstep : ∀ m ∈ R, ∃ p, p ∈ R ∧ (p, m) ∈ edges) :
    ∀ x ∈ R, False := by
  classical
  have key : ∀ (k : ℕ) (x : ℕ), x ∈ R →
      (R.filter (fun m =>
        decide (Relation.TransGen (fun a b : ℕ => (a, b) ∈ edges) m x))).length ≤ k →
      False := by
    intro k
    induction k with
    | zero =>
        intro x hx hle
        rcases hstep x hx with ⟨p, hp, hpe⟩
        have hpx : Relation.TransGen (fun a b : ℕ => (a, b) ∈ edges) p x :=
          Relation.TransGen.single hpe
        have hmem : p ∈ R.filter (fun m =>
            decide (Relation.TransGen (fun a b : ℕ => (a, b) ∈ edges) m x)) :=
          List.mem_filter.mpr ⟨hp, decide_eq_true hpx⟩
        have := List.length_pos.mpr (List.ne_nil_of_mem hmem)
        omega
    | succ k ih =>
        intro x hx hle
        rcases hstep x hx with ⟨p, hp, hpe⟩
        apply ih p hp
        have hlt : (R.filter (fun m =>
            decide (Relation.TransGen (fun a b : ℕ => (a, b) ∈ edges) m p))).length <
            (R.filter (fun m =>
            decide (Relation.TransGen (fun a b : ℕ => (a, b) ∈ edges) m x))).length := by
          apply filter_length_strict R _ _ ?_ p hp ?_ ?_
          · intro m _ hmp
            exact decide_eq_true ((of_decide_eq_true hmp).tail hpe)
          · exact decide_eq_true (Relation.TransGen.single hpe)
          · exact decide_eq_false (hacyc p)
        omega
  intro x hx
  exact key _ x hx (le_refl _)

/-- On an acyclic well-formed graph, the run leaves no node out. -/
theorem kahnOut_cover (g : ExecGraph) (hwf : g.WF) (hacyc : g.Acyclic)
    {L : List ℕ} (hout : KOut g L) : ∀ n ∈ g.nodes, n ∈ L := by
  intro n hn
  by_contra hnL
  have hR : n ∈ g.nodes.filter (fun m => decide (m ∉ L)) :=
    List.mem_filter.mpr ⟨hn, decide_eq_true hnL⟩
  apply no_source_false g.edges (g.nodes.filter (fun m => decide (m ∉ L)))
    (fun m => hacyc m) ?_ n hR
  intro m hm
  have hmm := List.mem_filter.mp hm
  have hmnL : m ∉ L := of_decide_eq_true hmm.2
  have hpos := hout.noSource m hmm.1 hmnL
  rcases cnt_pos g L m hpos with ⟨e, he, hEq, hnp⟩
  refine ⟨e.1, List.mem_filter.mpr ⟨(hwf.2 e he).1, decide_eq_true hnp⟩, ?_⟩
  have hpair : (e.1, e.2) ∈ g.edges := by
    rw [Prod.mk.eta]
    exact he
  exact hEq ▸ hpair

/-- Any two nodes linked by a chain of connections appear in topological
position in the run's output, provided the output covers the graph. -/
theorem kahnRun_transGen_idx (g : ExecGraph) (hwf : g.WF)
    (hout : KOut g (kahnRun g)) (hcov : ∀ m ∈ g.nodes, m ∈ kahnRun g) :
    ∀ a b, Relation.TransGen (edgeRelE g) a b →
      (kahnRun g).indexOf a < (kahnRun g).indexOf b := by
  intro a b h
  induction h with
  | single h1 =>
      have h2 : (a, _).2 ∈ kahnRun g := hcov _ (hwf.2 _ h1).2
      exact (hout.ordering _ h1 h2).2
  | tail h1 h2 ih =>
      have h2m := hcov _ (hwf.2 _ h2).2
      exact lt_trans ih (hout.ordering _ h2 h2m).2

/-- Claim C2 confirmed: on every well-formed cycle-free graph,
`get_execution_order` succeeds, its result lists every node exactly once
(it is duplicate-free and covers the node set), and for every connection
the producing node appears strictly before the consuming node. -/
theorem C2_execution_order (g : ExecGraph) (hwf : g.WF) (hacyc : g.Acyclic) :
    ∃ L, getExecutionOrder g = .ok L ∧ (∀ n, n ∈ L ↔ n ∈ g.nodes) ∧ L.Nodup ∧
      ∀ e ∈ g.edges, L.indexOf e.1 < L.indexOf e.2 := by
  have hout := kahnRun_out g hwf
  have hcov := kahnOut_cover g hwf hacyc hout
  have hsub1 : List.Subperm (kahnRun g) g.nodes :=
    List.Nodup.subperm hout.nodup (fun a ha => hout.mem a ha)
  have hsub2 : List.Subperm g.nodes (kahnRun g) :=
    List.Nodup.subperm hwf.1 (fun a ha => hcov a ha)
  have hperm := hsub1.antisymm hsub2
  have hlen : (kahnRun g).length = g.nodes.length := hperm.length_eq
  refine ⟨kahnRun g, ?_, ?_, hout.nodup, ?_⟩
  · unfold getExecutionOrder
    rw [if_pos hlen]
  · intro n
    exact ⟨fun h => hout.mem n h, fun h => hcov n h⟩
  · intro e he
    have h2 : e.2 ∈ kahnRun g := hcov e.2 (hwf.2 e he).2
    exact (hout.ordering e he h2).2

/-- A strictly increasing rank function witnesses acyclicity. -/
theorem acyclic_of_rank (g : ExecGraph) (f : ℕ → ℕ)
    (hf : ∀ e ∈ g.edges, f e.1 < f e.2) : g.Acyclic := by
  intro n htg
  have key : ∀ a b, Relation.TransGen (edgeRelE g) a b → f a < f b := by
    intro a b h
    induction h with
    | single h1 => exact hf _ h1
    | tail h1 h2 ih => exact lt_trans ih (hf _ h2)
  exact lt_irrefl _ (key n n htg)

/-- Witness for `C2_execution_order` on the concrete three-node chain. -/
theorem C2_witness :
    ∃ L, getExecutionOrder chainE = .ok L ∧
      (∀ n, n ∈ L ↔ n ∈ chainE.nodes) ∧ L.Nodup ∧
      ∀ e ∈ chainE.edges, L.indexOf e.1 < L.indexOf e.2 :=
  C2_execution_order chainE ⟨by decide, by decide⟩
    (acyclic_of_rank chainE (fun n => n) (by decide))

/-- Claim C6 confirmed: on every well-formed graph containing a directed
cycle, `get_execution_order` raises (ValueError "Cycle detected in node
graph", the spec's CycleError).  The source method only reads the graph —
its in-degree map, queue and result are local — so the call cannot modify
any node, connection, state or cache; accordingly it is embedded as a
pure function of the graph, and non-mutation holds by construction. -/
theorem C6_cycle_detection (g : ExecGraph) (hwf : g.WF)
    (hcyc : ∃ n, Relation.TransGen (edgeRelE g) n n) :
    getExecutionOrder g = .error "Cycle detected in node graph" := by
  rcases hcyc with ⟨n, htg⟩
  unfold getExecutionOrder
  by_cases hlen : (kahnRun g).length = g.nodes.length
  · exfalso
    have hout := kahnRun_out g hwf
    have hsub1 : List.Subperm (kahnRun g) g.nodes :=
      List.Nodup.subperm hout.nodup (fun a ha => hout.mem a ha)
    have hperm : (kahnRun g).Perm g.nodes := hsub1.perm_of_length_le (by omega)
    have hcov : ∀ m ∈ g.nodes, m ∈ kahnRun g := fun m hm => hperm.mem_iff.mpr hm
    exact lt_irrefl _ (kahnRun_transGen_idx g hwf hout hcov n n htg)
  · rw [if_neg hlen]

/-- Witness for `C6_cycle_detection` on the concrete two-node cycle. -/
theorem C6_witness :
    getExecutionOrder cycleE = .error "Cycle detected in node graph" :=
  C6_cycle_detection cycleE ⟨by decide, by decide⟩
    ⟨1, @Relation.TransGen.head ℕ (edgeRelE cycleE) 1 2 1
      (by decide : ((1 : ℕ), (2 : ℕ)) ∈ cycleE.edges)
      (@Relation.TransGen.single ℕ (edgeRelE cycleE) 2 1
        (by decide : ((2 : ℕ), (1 : ℕ)) ∈ cycleE.edges))⟩

end GoboFlow
